import Mathlib

/-!
Verification of the schema-building pipeline of the `schema` crate.

The public entry points (`build_schema`, `build_schema_with_extensions`,
`parse_definitions`, and the embedded `BUILTINS` / `RELAY_EXTENSIONS`
documents) are translated from `src/compiler/crates/schema/src/lib.rs`.
The crate modules `definitions`, `errors`, `lexer`, `parser` and `token`
are declared there but their sources are not part of this tree, so the
data model, the definition merger and the two-phase `Schema::build`
algorithm are modelled from the specification (sections 3, 4.3, 4.4 and
4.5); each such definition carries a doc comment saying so.

Machine integers do not occur: all identifiers are dense table indices,
modelled as `Nat`.  Fallible operations return `Except SchemaError`.
-/

namespace RelaySchema

/-- Modelled from the spec (section 3): AST-level default values
(literals and list/object literals). -/
inductive AstValue where
  | nullValue
  | intValue (i : Int)
  | stringValue (s : String)
  | booleanValue (b : Bool)
  | enumValue (s : String)
  | listValue (vs : List AstValue)
  | objectValue (fs : List (String × AstValue))

/-- Modelled from the spec (section 3): AST-level type reference,
a recursive value type Named(name) | List(inner) | NonNull(inner). -/
inductive AstType where
  | named (name : String)
  | list (ofType : AstType)
  | nonNull (ofType : AstType)

/-- Modelled from the spec (sections 3 and 4.4): use-site locations a
directive definition may declare. -/
inductive DirectiveLocation where
  | QUERY | MUTATION | SUBSCRIPTION | FIELD | FRAGMENT_DEFINITION
  | FRAGMENT_SPREAD | INLINE_FRAGMENT
  | SCHEMA | SCALAR | OBJECT | FIELD_DEFINITION | ARGUMENT_DEFINITION
  | INTERFACE | UNION | ENUM | ENUM_VALUE | INPUT_OBJECT
  | INPUT_FIELD_DEFINITION
deriving DecidableEq

/-- Modelled from the spec (section 3): an argument or input-field
definition before resolution (name, AST type reference, optional
default value). -/
structure InputValueDefinition where
  name : String
  typ : AstType
  defaultValue : Option AstValue

/-- Modelled from the spec (section 3): a directive application carried
by a definition or a field (name plus bound argument values). -/
structure DirectiveApp where
  name : String
  arguments : List (String × AstValue)

/-- Modelled from the spec (section 3): an AST field definition (name,
type reference, argument list, directive applications). -/
structure FieldDefinition where
  name : String
  typ : AstType
  arguments : List InputValueDefinition
  directives : List DirectiveApp

/-- Modelled from the spec (sections 3 and 4.2): the closed tagged union
of type-system definitions produced by the parser, including the
Extend-variants of each type definition. -/
inductive TypeSystemDefinition where
  | scalarDef (name : String) (directives : List DirectiveApp)
  | objectDef (name : String) (interfaces : List String)
      (directives : List DirectiveApp) (fields : List FieldDefinition)
  | interfaceDef (name : String) (interfaces : List String)
      (directives : List DirectiveApp) (fields : List FieldDefinition)
  | unionDef (name : String) (directives : List DirectiveApp)
      (members : List String)
  | enumDef (name : String) (directives : List DirectiveApp)
      (values : List String)
  | inputObjectDef (name : String) (directives : List DirectiveApp)
      (fields : List InputValueDefinition)
  | directiveDef (name : String) (arguments : List InputValueDefinition)
      (locations : List DirectiveLocation)
  | schemaDef (operationTypes : List (String × String))
      (directives : List DirectiveApp)
  | scalarExt (name : String) (directives : List DirectiveApp)
  | objectExt (name : String) (interfaces : List String)
      (directives : List DirectiveApp) (fields : List FieldDefinition)
  | interfaceExt (name : String) (interfaces : List String)
      (directives : List DirectiveApp) (fields : List FieldDefinition)
  | unionExt (name : String) (directives : List DirectiveApp)
      (members : List String)
  | enumExt (name : String) (directives : List DirectiveApp)
      (values : List String)
  | inputObjectExt (name : String) (directives : List DirectiveApp)
      (fields : List InputValueDefinition)

/-- Modelled from the spec: lexer and parser internals are out of scope
("produces an ordered sequence of definitions"); the sources `lexer.rs`,
`token.rs` and `parser.rs` are not in this tree.  A source document is
therefore modelled as either its parsed ordered definition sequence or a
lexing/parsing failure with a message. -/
inductive SourceText where
  | ok (defs : List TypeSystemDefinition)
  | syntaxFailure (msg : String)

/-- Modelled from the spec (section 4.5): the closed set of error kinds.
Source spans are diagnostic metadata and are omitted; each error keeps
the offending name (or message) so that statements such as
"fails with UndefinedType naming Missing" remain expressible. -/
inductive SchemaError where
  | syntaxError (msg : String)
  | duplicateDefinition (name : String)
  | extensionOfUndefinedType (name : String)
  | undefinedType (name : String)
  | expectedInterfaceType (name : String)
  | expectedObjectType (name : String)
  | invalidDirectiveUsage (name : String)
  | missingRequiredArgument (name : String)
  | unknownArgument (name : String)
  | duplicateField (name : String)

/-- Modelled from the spec (section 3): a resolved reference to a named
entity is a kind-scoped dense identifier (arena index). -/
inductive TypeId where
  | scalar (id : Nat)
  | object (id : Nat)
  | interface (id : Nat)
  | union (id : Nat)
  | enum (id : Nat)
  | inputObject (id : Nat)
deriving DecidableEq

/-- Modelled from the spec (section 3): resolved type reference,
Named(entity id) | List(inner) | NonNull(inner). -/
inductive TypeReference where
  | named (t : TypeId)
  | list (ofType : TypeReference)
  | nonNull (ofType : TypeReference)

/-- Modelled from the spec (section 3): a resolved directive application
attached to an entity or field. -/
structure DirectiveValue where
  name : String
  arguments : List (String × AstValue)

/-- Modelled from the spec (section 3): a resolved argument or
input-field definition. -/
structure Argument where
  name : String
  typ : TypeReference
  defaultValue : Option AstValue

/-- Modelled from the spec (section 3): a resolved field entity.
`fieldType` is the resolved type reference, `parentType` the non-owning
back-reference to the declaring entity. -/
structure Field where
  name : String
  fieldType : TypeReference
  arguments : List Argument
  parentType : Option TypeId
  directives : List DirectiveValue

/-- Modelled from the spec (section 3): a scalar entity. -/
structure Scalar where
  name : String
  directives : List DirectiveValue

/-- Modelled from the spec (section 3): an object entity; `fields` are
FieldIDs into the schema's field table, `interfaces` InterfaceIDs. -/
structure Object where
  name : String
  fields : List Nat
  interfaces : List Nat
  directives : List DirectiveValue

/-- Modelled from the spec (section 3): an interface entity. -/
structure Interface where
  name : String
  fields : List Nat
  interfaces : List Nat
  directives : List DirectiveValue

/-- Modelled from the spec (section 3): a union entity; `members` are
ObjectIDs. -/
structure Union where
  name : String
  members : List Nat
  directives : List DirectiveValue

/-- Modelled from the spec (section 3): an enum entity with its ordered
value names. -/
structure Enum where
  name : String
  values : List String
  directives : List DirectiveValue

/-- Modelled from the spec (section 3): an input-object entity with its
resolved input fields. -/
structure InputObject where
  name : String
  fields : List Argument
  directives : List DirectiveValue

/-- Modelled from the spec (section 3): a directive definition entity
(name, resolved argument definitions, allowed locations). -/
structure Directive where
  name : String
  arguments : List Argument
  locations : List DirectiveLocation

/-- Modelled from the spec (section 3): the output graph, parallel dense
tables per entity kind plus the shared name-to-identifier mapping. -/
structure Schema where
  typeMap : List (String × TypeId)
  scalars : List Scalar
  objects : List Object
  interfaces : List Interface
  unions : List Union
  enums : List Enum
  inputObjects : List InputObject
  fields : List Field
  directives : List Directive

/-- The empty schema, the starting point of phase 2. -/
def emptySchema : Schema :=
  ⟨[], [], [], [], [], [], [], [], []⟩

/-- Kind tag used to group definitions by (kind, name), following the
spec's merger contract (section 4.3). -/
inductive DefKind where
  | scalarKind | objectKind | interfaceKind | unionKind | enumKind
  | inputObjectKind | directiveKind
deriving DecidableEq

/-- The (kind, name) key of a base (non-extension) definition; `none`
for schema definitions and for extension definitions. -/
def kindName : TypeSystemDefinition → Option (DefKind × String)
  | .scalarDef n _ => some (.scalarKind, n)
  | .objectDef n _ _ _ => some (.objectKind, n)
  | .interfaceDef n _ _ _ => some (.interfaceKind, n)
  | .unionDef n _ _ => some (.unionKind, n)
  | .enumDef n _ _ => some (.enumKind, n)
  | .inputObjectDef n _ _ => some (.inputObjectKind, n)
  | .directiveDef n _ _ => some (.directiveKind, n)
  | _ => none

/-- The (kind, name) key targeted by an extension definition; `none`
for every non-extension definition. -/
def extendTarget : TypeSystemDefinition → Option (DefKind × String)
  | .scalarExt n _ => some (.scalarKind, n)
  | .objectExt n _ _ _ => some (.objectKind, n)
  | .interfaceExt n _ _ _ => some (.interfaceKind, n)
  | .unionExt n _ _ => some (.unionKind, n)
  | .enumExt n _ _ => some (.enumKind, n)
  | .inputObjectExt n _ _ => some (.inputObjectKind, n)
  | _ => none

/-- Whether a definition is an Extend-variant. -/
def isExtend (d : TypeSystemDefinition) : Bool :=
  (extendTarget d).isSome

/-- The child names of a definition (field names, union members, enum
values, input-field names), used for the merger's collision check. -/
def childNames : TypeSystemDefinition → List String
  | .objectDef _ _ _ fs => fs.map FieldDefinition.name
  | .interfaceDef _ _ _ fs => fs.map FieldDefinition.name
  | .unionDef _ _ ms => ms
  | .enumDef _ _ vs => vs
  | .inputObjectDef _ _ fs => fs.map InputValueDefinition.name
  | .objectExt _ _ _ fs => fs.map FieldDefinition.name
  | .interfaceExt _ _ _ fs => fs.map FieldDefinition.name
  | .unionExt _ _ ms => ms
  | .enumExt _ _ vs => vs
  | .inputObjectExt _ _ fs => fs.map InputValueDefinition.name
  | _ => []

/-- The field definitions carried by a (base or extension) definition. -/
def fieldsOfDef : TypeSystemDefinition → List FieldDefinition
  | .objectDef _ _ _ fs => fs
  | .interfaceDef _ _ _ fs => fs
  | .objectExt _ _ _ fs => fs
  | .interfaceExt _ _ _ fs => fs
  | _ => []

/-- The union member names carried by a definition. -/
def membersOfDef : TypeSystemDefinition → List String
  | .unionDef _ _ ms => ms
  | .unionExt _ _ ms => ms
  | _ => []

/-- The enum value names carried by a definition. -/
def valuesOfDef : TypeSystemDefinition → List String
  | .enumDef _ _ vs => vs
  | .enumExt _ _ vs => vs
  | _ => []

/-- The input-field definitions carried by a definition. -/
def inputFieldsOfDef : TypeSystemDefinition → List InputValueDefinition
  | .inputObjectDef _ _ fs => fs
  | .inputObjectExt _ _ fs => fs
  | _ => []

/-- The directive applications attached directly to a definition. -/
def appliedDirectivesOfDef : TypeSystemDefinition → List DirectiveApp
  | .scalarDef _ ds => ds
  | .objectDef _ _ ds _ => ds
  | .interfaceDef _ _ ds _ => ds
  | .unionDef _ ds _ => ds
  | .enumDef _ ds _ => ds
  | .inputObjectDef _ ds _ => ds
  | .schemaDef _ ds => ds
  | .scalarExt _ ds => ds
  | .objectExt _ _ ds _ => ds
  | .interfaceExt _ _ ds _ => ds
  | .unionExt _ ds _ => ds
  | .enumExt _ ds _ => ds
  | .inputObjectExt _ ds _ => ds
  | .directiveDef _ _ _ => []

/-- Modelled from the spec (section 4.3): applying a valid extension
appends its children (interfaces, directive applications, fields, union
members, enum values, input fields) to the base definition's
corresponding lists, in encounter order.  The fallback case is
unreachable because the merger only calls this on a base definition of
the extension's own (kind, name). -/
def mergeDef : TypeSystemDefinition → TypeSystemDefinition → TypeSystemDefinition
  | .scalarDef n ds, .scalarExt _ ds2 => .scalarDef n (ds ++ ds2)
  | .objectDef n is ds fs, .objectExt _ is2 ds2 fs2 =>
      .objectDef n (is ++ is2) (ds ++ ds2) (fs ++ fs2)
  | .interfaceDef n is ds fs, .interfaceExt _ is2 ds2 fs2 =>
      .interfaceDef n (is ++ is2) (ds ++ ds2) (fs ++ fs2)
  | .unionDef n ds ms, .unionExt _ ds2 ms2 => .unionDef n (ds ++ ds2) (ms ++ ms2)
  | .enumDef n ds vs, .enumExt _ ds2 vs2 => .enumDef n (ds ++ ds2) (vs ++ vs2)
  | .inputObjectDef n ds fs, .inputObjectExt _ ds2 fs2 =>
      .inputObjectDef n (ds ++ ds2) (fs ++ fs2)
  | d, _ => d

/-- First entry of the consolidated table whose (kind, name) key is `k`. -/
def findByKey : List TypeSystemDefinition → (DefKind × String) → Option TypeSystemDefinition
  | [], _ => none
  | d :: rest, k => if kindName d = some k then some d else findByKey rest k

/-- Replace the first entry keyed `k` by its merge with extension `e`. -/
def updateByKey : List TypeSystemDefinition → (DefKind × String) →
    TypeSystemDefinition → List TypeSystemDefinition
  | [], _, _ => []
  | d :: rest, k, e =>
      if kindName d = some k then mergeDef d e :: rest
      else d :: updateByKey rest k e

/-- First name of `xs` that already occurs in `ys`. -/
def firstCommon : List String → List String → Option String
  | [], _ => none
  | x :: xs, ys => if x ∈ ys then some x else firstCommon xs ys

/-- Modelled from the spec (section 4.3): the child name introduced by
extension `e` that collides with a name already present in base `d`,
if any. -/
def firstDupChild (d e : TypeSystemDefinition) : Option String :=
  firstCommon (childNames e) (childNames d)

/-- The non-extension items of a document sequence, in order. -/
def nonExtendItems (l : List TypeSystemDefinition) : List TypeSystemDefinition :=
  l.filter (fun d => !isExtend d)

/-- The extension items of a document sequence, in order. -/
def extendItems (l : List TypeSystemDefinition) : List TypeSystemDefinition :=
  l.filter (fun d => isExtend d)

/-- Modelled from the spec (section 4.3): register base definitions one
by one; two base definitions with the same (kind, name) are a
`DuplicateDefinition` error.  Schema definitions carry no key and are
passed through. -/
def addBases : List TypeSystemDefinition → List TypeSystemDefinition →
    Except SchemaError (List TypeSystemDefinition)
  | [], acc => .ok acc
  | d :: rest, acc =>
      match kindName d with
      | none => addBases rest (acc ++ [d])
      | some k =>
          match findByKey acc k with
          | some _ => .error (.duplicateDefinition k.2)
          | none => addBases rest (acc ++ [d])

/-- Modelled from the spec (section 4.3): apply one extension
definition.  An extension with no matching base (kind, name) is an
`ExtensionOfUndefinedType` error; a child name colliding with one
already present in the base is a `DuplicateField` error. -/
def applyExtend (table : List TypeSystemDefinition) (e : TypeSystemDefinition) :
    Except SchemaError (List TypeSystemDefinition) :=
  match extendTarget e with
  | none => .ok table
  | some k =>
      match findByKey table k with
      | none => .error (.extensionOfUndefinedType k.2)
      | some target =>
          match firstDupChild target e with
          | some n => .error (.duplicateField n)
          | none => .ok (updateByKey table k e)

/-- Apply a sequence of extension definitions in encounter order. -/
def applyExtends : List TypeSystemDefinition → List TypeSystemDefinition →
    Except SchemaError (List TypeSystemDefinition)
  | [], table => .ok table
  | e :: rest, table =>
      match applyExtend table e with
      | .error err => .error err
      | .ok table2 => applyExtends rest table2

/-- Modelled from the spec (section 4.3, folded into `Schema::build`'s
first phase): produce one consolidated definition per (kind, name).
All plain definitions (from base and extension documents alike, so that
an extension document may also declare additional directives/types, as
the bundled relay-extensions document does) are registered first under
the uniqueness rule; all Extend-variants are then applied on top in
encounter order. -/
def consolidate (base ext : List TypeSystemDefinition) :
    Except SchemaError (List TypeSystemDefinition) :=
  match addBases (nonExtendItems (base ++ ext)) [] with
  | .error e => .error e
  | .ok table => applyExtends (extendItems (base ++ ext)) table

/-- Name lookup in the shared name-to-identifier table. -/
def lookupName : List (String × TypeId) → String → Option TypeId
  | [], _ => none
  | (k, t) :: rest, n => if k = n then some t else lookupName rest n

/-- AST-level information about a registered directive definition,
collected during phase 1 and consulted when validating applications. -/
structure DirectiveInfo where
  name : String
  arguments : List InputValueDefinition
  locations : List DirectiveLocation

/-- Directive-definition lookup by name. -/
def findDirectiveInfo : List DirectiveInfo → String → Option DirectiveInfo
  | [], _ => none
  | i :: rest, n => if i.name = n then some i else findDirectiveInfo rest n

/-- Modelled from the spec (section 4.4, phase 1): the registration
state — the shared name table, the registered directive definitions and
one dense identifier counter per type kind. -/
structure Phase1State where
  typeMap : List (String × TypeId)
  directiveDefs : List DirectiveInfo
  scalarCount : Nat
  objectCount : Nat
  interfaceCount : Nat
  unionCount : Nat
  enumCount : Nat
  inputObjectCount : Nat

/-- The empty registration state. -/
def initPhase1 : Phase1State :=
  ⟨[], [], 0, 0, 0, 0, 0, 0⟩

/-- Modelled from the spec (section 4.4, phase 1): allocate a dense
kind-scoped identifier for one named type and register it, enforcing
the shared-namespace uniqueness invariant; directive definitions are
recorded for application validation.  Bodies are not yet created. -/
def phase1Step (st : Phase1State) : TypeSystemDefinition →
    Except SchemaError Phase1State
  | .scalarDef n _ =>
      if (lookupName st.typeMap n).isSome then .error (.duplicateDefinition n)
      else .ok { st with typeMap := st.typeMap ++ [(n, .scalar st.scalarCount)],
                         scalarCount := st.scalarCount + 1 }
  | .objectDef n _ _ _ =>
      if (lookupName st.typeMap n).isSome then .error (.duplicateDefinition n)
      else .ok { st with typeMap := st.typeMap ++ [(n, .object st.objectCount)],
                         objectCount := st.objectCount + 1 }
  | .interfaceDef n _ _ _ =>
      if (lookupName st.typeMap n).isSome then .error (.duplicateDefinition n)
      else .ok { st with typeMap := st.typeMap ++ [(n, .interface st.interfaceCount)],
                         interfaceCount := st.interfaceCount + 1 }
  | .unionDef n _ _ =>
      if (lookupName st.typeMap n).isSome then .error (.duplicateDefinition n)
      else .ok { st with typeMap := st.typeMap ++ [(n, .union st.unionCount)],
                         unionCount := st.unionCount + 1 }
  | .enumDef n _ _ =>
      if (lookupName st.typeMap n).isSome then .error (.duplicateDefinition n)
      else .ok { st with typeMap := st.typeMap ++ [(n, .enum st.enumCount)],
                         enumCount := st.enumCount + 1 }
  | .inputObjectDef n _ _ =>
      if (lookupName st.typeMap n).isSome then .error (.duplicateDefinition n)
      else .ok { st with typeMap := st.typeMap ++ [(n, .inputObject st.inputObjectCount)],
                         inputObjectCount := st.inputObjectCount + 1 }
  | .directiveDef n args locs =>
      .ok { st with directiveDefs := st.directiveDefs ++ [⟨n, args, locs⟩] }
  | _ => .ok st

/-- Modelled from the spec (section 4.4): phase 1, the registration walk
over the consolidated definitions. -/
def phase1 : List TypeSystemDefinition → Phase1State →
    Except SchemaError Phase1State
  | [], st => .ok st
  | d :: rest, st =>
      match phase1Step st d with
      | .error e => .error e
      | .ok st2 => phase1 rest st2

/-- The innermost Named(name) of an AST type reference. -/
def innermostName : AstType → String
  | .named n => n
  | .list i => innermostName i
  | .nonNull i => innermostName i

/-- Modelled from the spec (section 4.4, phase 2): resolve an AST type
reference by looking up the innermost Named(name) in the name table;
`UndefinedType` if absent. -/
def resolveType (tm : List (String × TypeId)) : AstType →
    Except SchemaError TypeReference
  | .named n =>
      match lookupName tm n with
      | some t => .ok (.named t)
      | none => .error (.undefinedType n)
  | .list i =>
      match resolveType tm i with
      | .ok r => .ok (.list r)
      | .error e => .error e
  | .nonNull i =>
      match resolveType tm i with
      | .ok r => .ok (.nonNull r)
      | .error e => .error e

/-- Resolve a list of argument / input-field definitions. -/
def resolveArgumentDefs (tm : List (String × TypeId)) :
    List InputValueDefinition → Except SchemaError (List Argument)
  | [] => .ok []
  | iv :: rest =>
      match resolveType tm iv.typ with
      | .error e => .error e
      | .ok ty =>
          match resolveArgumentDefs tm rest with
          | .error e => .error e
          | .ok args => .ok (⟨iv.name, ty, iv.defaultValue⟩ :: args)

/-- Modelled from the spec (section 4.4, phase 2): resolve an
interface-implements list; `UndefinedType` if a name is absent,
`ExpectedInterfaceType` if it resolves to a non-interface. -/
def resolveInterfaceNames (tm : List (String × TypeId)) :
    List String → Except SchemaError (List Nat)
  | [] => .ok []
  | n :: rest =>
      match lookupName tm n with
      | none => .error (.undefinedType n)
      | some t =>
          match t with
          | .interface i =>
              match resolveInterfaceNames tm rest with
              | .error e => .error e
              | .ok is => .ok (i :: is)
          | _ => .error (.expectedInterfaceType n)

/-- Modelled from the spec (section 4.4, phase 2): resolve a union
member list; `UndefinedType` if a name is absent, `ExpectedObjectType`
if it resolves to a non-object. -/
def resolveMemberNames (tm : List (String × TypeId)) :
    List String → Except SchemaError (List Nat)
  | [] => .ok []
  | n :: rest =>
      match lookupName tm n with
      | none => .error (.undefinedType n)
      | some t =>
          match t with
          | .object i =>
              match resolveMemberNames tm rest with
              | .error e => .error e
              | .ok is => .ok (i :: is)
          | _ => .error (.expectedObjectType n)

/-- Whether an argument definition is required: non-nullable type and no
default value (section 4.4). -/
def isRequiredArg (d : InputValueDefinition) : Bool :=
  match d.typ with
  | .nonNull _ => d.defaultValue.isNone
  | _ => false

/-- Supplied-argument lookup by name. -/
def lookupArgValue : List (String × AstValue) → String → Option AstValue
  | [], _ => none
  | (k, v) :: rest, n => if k = n then some v else lookupArgValue rest n

/-- Argument-definition lookup by name. -/
def findArgDef : List InputValueDefinition → String → Option InputValueDefinition
  | [], _ => none
  | d :: rest, n => if d.name = n then some d else findArgDef rest n

/-- First required argument of a directive definition not supplied by
the application, if any. -/
def firstMissingRequiredArg (defs : List InputValueDefinition)
    (supplied : List (String × AstValue)) : Option String :=
  match defs with
  | [] => none
  | d :: rest =>
      if isRequiredArg d && (lookupArgValue supplied d.name).isNone then some d.name
      else firstMissingRequiredArg rest supplied

/-- First supplied argument name unknown to the directive definition,
if any. -/
def firstUnknownArg (supplied : List (String × AstValue))
    (defs : List InputValueDefinition) : Option String :=
  match supplied with
  | [] => none
  | (k, _) :: rest =>
      if (findArgDef defs k).isSome then firstUnknownArg rest defs
      else some k

/-- Modelled from the spec (section 4.4, phase 2): validate directive
applications at a use site.  The directive must be a registered
DirectiveDefinition (the spec's closed error set offers no dedicated
kind for an unregistered directive name, so this is surfaced as
`UndefinedType`); the site must be a member of the declared locations
(else `InvalidDirectiveUsage`); every required argument must be
supplied (else `MissingRequiredArgument`); unknown argument names are
rejected (`UnknownArgument`). -/
def checkDirectives (st : Phase1State) (site : DirectiveLocation) :
    List DirectiveApp → Except SchemaError (List DirectiveValue)
  | [] => .ok []
  | app :: rest =>
      match findDirectiveInfo st.directiveDefs app.name with
      | none => .error (.undefinedType app.name)
      | some info =>
          if site ∈ info.locations then
            match firstMissingRequiredArg info.arguments app.arguments with
            | some a => .error (.missingRequiredArgument a)
            | none =>
                match firstUnknownArg app.arguments info.arguments with
                | some a => .error (.unknownArgument a)
                | none =>
                    match checkDirectives st site rest with
                    | .error e => .error e
                    | .ok ds => .ok (⟨app.name, app.arguments⟩ :: ds)
          else .error (.invalidDirectiveUsage app.name)

/-- Modelled from the spec (section 4.4, phase 2): resolve the fields of
an object or interface definition, in order. -/
def resolveFields (st : Phase1State) (parent : Option TypeId) :
    List FieldDefinition → Except SchemaError (List Field)
  | [] => .ok []
  | f :: rest =>
      match resolveType st.typeMap f.typ with
      | .error e => .error e
      | .ok ty =>
          match resolveArgumentDefs st.typeMap f.arguments with
          | .error e => .error e
          | .ok args =>
              match checkDirectives st .FIELD_DEFINITION f.directives with
              | .error e => .error e
              | .ok ds =>
                  match resolveFields st parent rest with
                  | .error e => .error e
                  | .ok fs => .ok (⟨f.name, ty, args, parent, ds⟩ :: fs)

/-- Modelled from the spec (section 4.4, phase 2): process one
consolidated definition, populating the entity tables.  FieldIDs are
assigned densely as fields are appended to the field table.  Extension
definitions no longer occur here (consolidation merged them away) and
schema definitions carry no entity (the spec gives root-operation
bookkeeping no semantics), so both leave the tables unchanged. -/
def addDefinition (st : Phase1State) (s : Schema) :
    TypeSystemDefinition → Except SchemaError Schema
  | .scalarDef n dirs =>
      match checkDirectives st .SCALAR dirs with
      | .error e => .error e
      | .ok ds => .ok { s with scalars := s.scalars ++ [⟨n, ds⟩] }
  | .objectDef n ifs dirs flds =>
      match resolveInterfaceNames st.typeMap ifs with
      | .error e => .error e
      | .ok iids =>
          match checkDirectives st .OBJECT dirs with
          | .error e => .error e
          | .ok ds =>
              match resolveFields st (lookupName st.typeMap n) flds with
              | .error e => .error e
              | .ok fs =>
                  .ok { s with
                        objects := s.objects ++
                          [⟨n, List.range' s.fields.length fs.length, iids, ds⟩],
                        fields := s.fields ++ fs }
  | .interfaceDef n ifs dirs flds =>
      match resolveInterfaceNames st.typeMap ifs with
      | .error e => .error e
      | .ok iids =>
          match checkDirectives st .INTERFACE dirs with
          | .error e => .error e
          | .ok ds =>
              match resolveFields st (lookupName st.typeMap n) flds with
              | .error e => .error e
              | .ok fs =>
                  .ok { s with
                        interfaces := s.interfaces ++
                          [⟨n, List.range' s.fields.length fs.length, iids, ds⟩],
                        fields := s.fields ++ fs }
  | .unionDef n dirs mems =>
      match resolveMemberNames st.typeMap mems with
      | .error e => .error e
      | .ok mids =>
          match checkDirectives st .UNION dirs with
          | .error e => .error e
          | .ok ds => .ok { s with unions := s.unions ++ [⟨n, mids, ds⟩] }
  | .enumDef n dirs vals =>
      match checkDirectives st .ENUM dirs with
      | .error e => .error e
      | .ok ds => .ok { s with enums := s.enums ++ [⟨n, vals, ds⟩] }
  | .inputObjectDef n dirs ifields =>
      match resolveArgumentDefs st.typeMap ifields with
      | .error e => .error e
      | .ok args =>
          match checkDirectives st .INPUT_OBJECT dirs with
          | .error e => .error e
          | .ok ds =>
              .ok { s with inputObjects := s.inputObjects ++ [⟨n, args, ds⟩] }
  | .directiveDef n args locs =>
      match resolveArgumentDefs st.typeMap args with
      | .error e => .error e
      | .ok rargs =>
          .ok { s with directives := s.directives ++ [⟨n, rargs, locs⟩] }
  | _ => .ok s

/-- Modelled from the spec (section 4.4): phase 2, the resolution walk
over the consolidated definitions. -/
def phase2 (st : Phase1State) : List TypeSystemDefinition → Schema →
    Except SchemaError Schema
  | [], s => .ok s
  | d :: rest, s =>
      match addDefinition st s d with
      | .error e => .error e
      | .ok s2 => phase2 st rest s2

/-- Run phases 1 and 2 on an already-consolidated definition set. -/
def resolveSchema (defs : List TypeSystemDefinition) :
    Except SchemaError Schema :=
  match phase1 defs initPhase1 with
  | .error e => .error e
  | .ok st => phase2 st defs { emptySchema with typeMap := st.typeMap }

/-- Modelled from the spec (sections 4.3 and 4.4): `Schema::build`.
Consolidates the base and extension definition sequences and then runs
the two-phase registration/resolution algorithm.  Errors
short-circuit: the first error wins. -/
def Schema.build (base ext : List TypeSystemDefinition) :
    Except SchemaError Schema :=
  match consolidate base ext with
  | .error e => .error e
  | .ok m => resolveSchema m

/-- Translated from `lib.rs`: `parse_definitions` exposes the parser
directly.  With documents modelled as `SourceText`, parsing yields the
document's definition sequence or its syntax failure. -/
def parse_definitions : SourceText → Except SchemaError (List TypeSystemDefinition)
  | .ok defs => .ok defs
  | .syntaxFailure msg => .error (.syntaxError msg)

/-- Modelled from the spec (section 6): the definitions of the built-in
type-system document — the foundational scalars always present. -/
def builtinDefs : List TypeSystemDefinition :=
  [.scalarDef "ID" [], .scalarDef "String" [], .scalarDef "Float" [],
   .scalarDef "Int" [], .scalarDef "Boolean" []]

/-- Modelled from the spec (section 6): `builtins.graphql` is not in
this tree; the spec describes it as a built-in type-system document
defining foundational scalars always present. -/
def BUILTINS : SourceText :=
  .ok builtinDefs

/-- Modelled from the spec (section 6): `relay-extensions.graphql` is
not in this tree; the spec describes it as a separate relay-style
extensions document holding additional directive/type declarations. -/
def RELAY_EXTENSIONS : SourceText :=
  .ok [.directiveDef "relay"
         [⟨"plural", .named "Boolean", none⟩]
         [.FRAGMENT_DEFINITION, .FRAGMENT_SPREAD]]

/-- Parse a document sequence, extending an accumulated definition list;
mirrors the `for … { server_definitions.extend(parse_definitions(…)?) }`
loops of `build_schema_with_extensions` in `lib.rs`. -/
def parseInto (acc : List TypeSystemDefinition) : List SourceText →
    Except SchemaError (List TypeSystemDefinition)
  | [] => .ok acc
  | doc :: rest =>
      match parse_definitions doc with
      | .error e => .error e
      | .ok ds => parseInto (acc ++ ds) rest

/-- Translated from `lib.rs` lines 42–58: parse `BUILTINS`, extend with
every server document, parse every extension document, then call
`Schema::build`. -/
def build_schema_with_extensions (server_sdls extension_sdls : List SourceText) :
    Except SchemaError Schema :=
  match parse_definitions BUILTINS with
  | .error e => .error e
  | .ok b =>
      match parseInto b server_sdls with
      | .error e => .error e
      | .ok server_definitions =>
          match parseInto [] extension_sdls with
          | .error e => .error e
          | .ok extension_definitions =>
              Schema.build server_definitions extension_definitions

/-- Translated from `lib.rs` lines 38–40: build from built-ins plus a
single server document, no extensions. -/
def build_schema (sdl : SourceText) : Except SchemaError Schema :=
  build_schema_with_extensions [sdl] []

/-! ## Derived observations used to state the verified properties -/

/-- The (kind, name) keys of the plain definitions of a sequence. -/
def keysOf : List TypeSystemDefinition → List (DefKind × String)
  | [] => []
  | d :: rest =>
      match kindName d with
      | some k => k :: keysOf rest
      | none => keysOf rest

/-- Whether a key list contains a repeated key. -/
def dupKeys : List (DefKind × String) → Bool
  | [] => false
  | k :: rest => decide (k ∈ rest) || dupKeys rest

/-- Whether a definition sequence contains two plain definitions with
the same (kind, name). -/
def hasDuplicateKey (l : List TypeSystemDefinition) : Bool :=
  dupKeys (keysOf l)

/-- The name a definition registers in the shared type namespace
(empty for directive, schema and extension definitions). -/
def typeNameOf (d : TypeSystemDefinition) : List String :=
  match kindName d with
  | some (.directiveKind, _) => []
  | some (_, n) => [n]
  | none => []

/-- All names registered in the shared type namespace, in order. -/
def typeNamesOf : List TypeSystemDefinition → List String
  | [] => []
  | d :: rest => typeNameOf d ++ typeNamesOf rest

/-- The name of `d` when it is a plain definition of kind `k`. -/
def defNameIfKind (k : DefKind) (d : TypeSystemDefinition) : List String :=
  match kindName d with
  | some (k2, n) => if k2 = k then [n] else []
  | none => []

/-- The names of the plain kind-`k` definitions of a sequence, in order. -/
def kindNamesOf (k : DefKind) : List TypeSystemDefinition → List String
  | [] => []
  | d :: rest => defNameIfKind k d ++ kindNamesOf k rest

/-- The directive-definition record carried by a definition, if any. -/
def directiveInfoOf : TypeSystemDefinition → Option DirectiveInfo
  | .directiveDef n args locs => some ⟨n, args, locs⟩
  | _ => none

/-- All directive-definition records of a sequence, in order. -/
def directiveInfosOf : List TypeSystemDefinition → List DirectiveInfo
  | [] => []
  | d :: rest =>
      match directiveInfoOf d with
      | some i => i :: directiveInfosOf rest
      | none => directiveInfosOf rest

/-- Pair each directive application with a fixed use site. -/
def dirUsesAt (site : DirectiveLocation) (ds : List DirectiveApp) :
    List (DirectiveLocation × DirectiveApp) :=
  ds.map (fun a => (site, a))

/-- The directive uses of a field list (field-definition site). -/
def fieldUses : List FieldDefinition → List (DirectiveLocation × DirectiveApp)
  | [] => []
  | f :: rest => dirUsesAt .FIELD_DEFINITION f.directives ++ fieldUses rest

/-- Every directive application of a definition, paired with its use
site. -/
def defUses : TypeSystemDefinition → List (DirectiveLocation × DirectiveApp)
  | .scalarDef _ ds => dirUsesAt .SCALAR ds
  | .objectDef _ _ ds fs => dirUsesAt .OBJECT ds ++ fieldUses fs
  | .interfaceDef _ _ ds fs => dirUsesAt .INTERFACE ds ++ fieldUses fs
  | .unionDef _ ds _ => dirUsesAt .UNION ds
  | .enumDef _ ds _ => dirUsesAt .ENUM ds
  | .inputObjectDef _ ds _ => dirUsesAt .INPUT_OBJECT ds
  | .directiveDef _ _ _ => []
  | .schemaDef _ _ => []
  | .scalarExt _ ds => dirUsesAt .SCALAR ds
  | .objectExt _ _ ds fs => dirUsesAt .OBJECT ds ++ fieldUses fs
  | .interfaceExt _ _ ds fs => dirUsesAt .INTERFACE ds ++ fieldUses fs
  | .unionExt _ ds _ => dirUsesAt .UNION ds
  | .enumExt _ ds _ => dirUsesAt .ENUM ds
  | .inputObjectExt _ ds _ => dirUsesAt .INPUT_OBJECT ds

/-- Every directive use of a definition sequence. -/
def usesOfList : List TypeSystemDefinition → List (DirectiveLocation × DirectiveApp)
  | [] => []
  | d :: rest => defUses d ++ usesOfList rest

/-- Whether a sequence contains a directive application whose use site
is outside the applied directive's declared locations (the directive
being declared in the sequence itself). -/
def mislocatedUse (l : List TypeSystemDefinition) : Bool :=
  (usesOfList l).any (fun u =>
    match findDirectiveInfo (directiveInfosOf l) u.2.name with
    | none => false
    | some info => decide (u.1 ∉ info.locations))

/-- The AST type references of a field list (field types and argument
types). -/
def fieldAstTypes : List FieldDefinition → List AstType
  | [] => []
  | f :: rest =>
      f.typ :: (f.arguments.map InputValueDefinition.typ ++ fieldAstTypes rest)

/-- Every AST type reference a definition asks phase 2 to resolve:
field types, field-argument types, input-field types and
directive-argument types. -/
def defAstTypes : TypeSystemDefinition → List AstType
  | .objectDef _ _ _ fs => fieldAstTypes fs
  | .interfaceDef _ _ _ fs => fieldAstTypes fs
  | .inputObjectDef _ _ fs => fs.map InputValueDefinition.typ
  | .directiveDef _ args _ => args.map InputValueDefinition.typ
  | _ => []

/-- Every AST type reference of a definition sequence. -/
def astTypesOfList : List TypeSystemDefinition → List AstType
  | [] => []
  | d :: rest => defAstTypes d ++ astTypesOfList rest

/-- Whether some reference of the sequence has an innermost Named(name)
absent from a name table. -/
def someRefUnresolvable (tm : List (String × TypeId))
    (l : List TypeSystemDefinition) : Bool :=
  (astTypesOfList l).any (fun a => (lookupName tm (innermostName a)).isNone)

/-- Whether a kind-scoped identifier is within the phase-1 counters. -/
def TypeId.boundedBy (st : Phase1State) : TypeId → Prop
  | .scalar i => i < st.scalarCount
  | .object i => i < st.objectCount
  | .interface i => i < st.interfaceCount
  | .union i => i < st.unionCount
  | .enum i => i < st.enumCount
  | .inputObject i => i < st.inputObjectCount

/-- Whether every Named identifier of a resolved reference is within
the phase-1 counters. -/
def TypeReference.BoundedBy (st : Phase1State) : TypeReference → Prop
  | .named t => t.boundedBy st
  | .list r => r.BoundedBy st
  | .nonNull r => r.BoundedBy st

/-- Counter-wise ordering of registration states: phase 1 only ever
increments the per-kind identifier counters. -/
def Phase1State.le (st st2 : Phase1State) : Prop :=
  st.scalarCount ≤ st2.scalarCount ∧ st.objectCount ≤ st2.objectCount ∧
  st.interfaceCount ≤ st2.interfaceCount ∧ st.unionCount ≤ st2.unionCount ∧
  st.enumCount ≤ st2.enumCount ∧ st.inputObjectCount ≤ st2.inputObjectCount

/-- Whether every type reference stored in the schema's field,
input-object and directive tables stays within the phase-1 counters. -/
def SchemaRefsBounded (st : Phase1State) (s : Schema) : Prop :=
  (∀ f ∈ s.fields, f.fieldType.BoundedBy st ∧
     ∀ a ∈ f.arguments, a.typ.BoundedBy st) ∧
  (∀ io ∈ s.inputObjects, ∀ a ∈ io.fields, a.typ.BoundedBy st) ∧
  (∀ dr ∈ s.directives, ∀ a ∈ dr.arguments, a.typ.BoundedBy st)

/-- Whether a kind-scoped identifier indexes a live entry of the
schema's table of that kind. -/
def idValidB (s : Schema) : TypeId → Bool
  | .scalar i => decide (i < s.scalars.length)
  | .object i => decide (i < s.objects.length)
  | .interface i => decide (i < s.interfaces.length)
  | .union i => decide (i < s.unions.length)
  | .enum i => decide (i < s.enums.length)
  | .inputObject i => decide (i < s.inputObjects.length)

/-- Whether every Named identifier of a resolved reference indexes a
live table entry. -/
def refValidB (s : Schema) : TypeReference → Bool
  | .named t => idValidB s t
  | .list r => refValidB s r
  | .nonNull r => refValidB s r

/-- Whether every resolved type reference reachable from a field, a
field argument, an input field or a directive argument of the schema
indexes a live table entry. -/
def allRefsValidB (s : Schema) : Bool :=
  s.fields.all (fun f =>
    refValidB s f.fieldType && f.arguments.all (fun a => refValidB s a.typ)) &&
  s.inputObjects.all (fun io => io.fields.all (fun a => refValidB s a.typ)) &&
  s.directives.all (fun d => d.arguments.all (fun a => refValidB s a.typ))

/-- The names of all entities of the six type kinds, table by table. -/
def allTypeNames (s : Schema) : List String :=
  s.scalars.map Scalar.name ++ s.objects.map Object.name ++
  s.interfaces.map Interface.name ++ s.unions.map Union.name ++
  s.enums.map Enum.name ++ s.inputObjects.map InputObject.name

/-- The schema of a successful build result (the empty schema on an
error, never consulted in that case). -/
def extractSchema : Except SchemaError Schema → Schema
  | .ok s => s
  | .error _ => emptySchema

/-- The field names of an object entity, read back through the schema's
field table. -/
def objectFieldNames (s : Schema) (o : Object) : List String :=
  o.fields.map (fun i => (s.fields[i]?.map Field.name).getD "")

/-- The field names of an interface entity, read back through the
schema's field table. -/
def interfaceFieldNames (s : Schema) (i : Interface) : List String :=
  i.fields.map (fun j => (s.fields[j]?.map Field.name).getD "")

/-- The member names of a union entity, read back through the schema's
object table. -/
def unionMemberNames (s : Schema) (u : Union) : List String :=
  u.members.map (fun j => (s.objects[j]?.map Object.name).getD "")

/-- Whether a built result carries a directive definition of the given
name. -/
def hasDirectiveNamed (r : Except SchemaError Schema) (n : String) : Bool :=
  match r with
  | .ok s => s.directives.any (fun d => d.name == n)
  | .error _ => false

/-! ## Concrete inputs used as witnesses and counterexamples -/

/-- A base sequence declaring the same (kind, name) twice. -/
def dupBaseExample : List TypeSystemDefinition :=
  [.scalarDef "A" [], .scalarDef "A" []]

/-- The spec's example extension of the undefined type Bar, adding a
field x of type Int. -/
def barExtension : TypeSystemDefinition :=
  .objectExt "Bar" [] [] [⟨"x", .named "Int", [], []⟩]

/-- A duplicate-ridden base used to show error-kind preemption. -/
def cexDupBase : List TypeSystemDefinition :=
  [.scalarDef "B0" [], .scalarDef "B0" []]

/-- A base declaring scalar S and object Foo with one field a. -/
def c6Base : List TypeSystemDefinition :=
  [.scalarDef "S" [], .objectDef "Foo" [] [] [⟨"a", .named "S", [], []⟩]]

/-- The object definition of Foo inside `c6Base`. -/
def c6B : TypeSystemDefinition :=
  .objectDef "Foo" [] [] [⟨"a", .named "S", [], []⟩]

/-- An extension adding field b to Foo. -/
def c6Ext : TypeSystemDefinition :=
  .objectExt "Foo" [] [] [⟨"b", .named "S", [], []⟩]

/-- A small base with a resolvable field, for the reference-validity
witness. -/
def c1Base : List TypeSystemDefinition :=
  [.scalarDef "T" [], .objectDef "Box" [] []
     [⟨"v", .nonNull (.named "T"), [⟨"d", .named "T", none⟩], []⟩]]

/-- The phase-1 name table of a definition set (empty on failure). -/
def phase1TableOf (defs : List TypeSystemDefinition) : List (String × TypeId) :=
  match phase1 defs initPhase1 with
  | .ok st => st.typeMap
  | .error _ => []

/-- A set whose first definition fails interface resolution while a
later field references the absent name Missing. -/
def c3Bad : List TypeSystemDefinition :=
  [.objectDef "A" ["B"] [] [], .scalarDef "B" [],
   .objectDef "C" [] [] [⟨"f", .named "Missing", [], []⟩]]

/-- A definition whose only defect is one unresolvable field type. -/
def c3Witness : List TypeSystemDefinition :=
  [.objectDef "W3" [] [] [⟨"f", .named "Nope", [], []⟩]]

/-- Whether a directive use is validated by the registered directive
definitions: the directive is found and the site is allowed. -/
def DirUseOk (st : Phase1State) (u : DirectiveLocation × DirectiveApp) : Prop :=
  ∃ info, findDirectiveInfo st.directiveDefs u.2.name = some info ∧
    u.1 ∈ info.locations

/-- A directive restricted to OBJECT applied on a scalar: the spec's
directive-location-enforcement scenario. -/
def c8Example : List TypeSystemDefinition :=
  [.directiveDef "d" [] [.OBJECT], .scalarDef "X" [⟨"d", []⟩]]

/-- The location defect of `c8Example` plus an earlier unresolvable
field type, to show error-kind preemption. -/
def c8Cex : List TypeSystemDefinition :=
  [.objectDef "A0" [] [] [⟨"f", .named "Missing0", [], []⟩],
   .directiveDef "d" [] [.OBJECT], .scalarDef "X" [⟨"d", []⟩]]

/-! ## Helper lemmas: lookups and keys -/

theorem lookupName_mem {l : List (String × TypeId)} {n : String} {t : TypeId}
    (h : lookupName l n = some t) : (n, t) ∈ l := by
  induction l with
  | nil => simp [lookupName] at h
  | cons p rest ih =>
      obtain ⟨k, v⟩ := p
      simp only [lookupName] at h
      by_cases hk : k = n
      · simp [hk] at h
        subst hk
        subst h
        exact List.mem_cons_self _ _
      · simp [hk] at h
        exact List.mem_cons_of_mem _ (ih h)

theorem lookupName_none_iff {l : List (String × TypeId)} {n : String} :
    lookupName l n = none ↔ n ∉ l.map Prod.fst := by
  induction l with
  | nil => simp [lookupName]
  | cons p rest ih =>
      obtain ⟨k, v⟩ := p
      simp only [lookupName, List.map_cons, List.mem_cons]
      by_cases hk : k = n
      · simp [hk]
      · simp [hk, ih, Ne.symm hk]

theorem lookupName_append_some {l1 l2 : List (String × TypeId)} {n : String}
    {t : TypeId} (h : lookupName l1 n = some t) :
    lookupName (l1 ++ l2) n = some t := by
  induction l1 with
  | nil => simp [lookupName] at h
  | cons p rest ih =>
      obtain ⟨k, v⟩ := p
      simp only [lookupName, List.cons_append] at h ⊢
      by_cases hk : k = n
      · simpa [hk] using h
      · simp [hk] at h ⊢
        exact ih h

theorem lookupName_append_none {l1 l2 : List (String × TypeId)} {n : String}
    (h : lookupName l1 n = none) :
    lookupName (l1 ++ l2) n = lookupName l2 n := by
  induction l1 with
  | nil => simp
  | cons p rest ih =>
      obtain ⟨k, v⟩ := p
      simp only [lookupName, List.cons_append] at h ⊢
      by_cases hk : k = n
      · simp [hk] at h
      · simp [hk] at h ⊢
        exact ih h

theorem keysOf_append (l1 l2 : List TypeSystemDefinition) :
    keysOf (l1 ++ l2) = keysOf l1 ++ keysOf l2 := by
  induction l1 with
  | nil => simp [keysOf]
  | cons d rest ih =>
      simp only [List.cons_append, keysOf]
      cases kindName d <;> simp [ih]

theorem findByKey_none_iff {l : List TypeSystemDefinition}
    {k : DefKind × String} : findByKey l k = none ↔ k ∉ keysOf l := by
  induction l with
  | nil => simp [findByKey, keysOf]
  | cons d rest ih =>
      simp only [findByKey, keysOf]
      by_cases hd : kindName d = some k
      · simp [hd]
      · cases hk : kindName d with
        | none => simp [hd, ih]
        | some k2 =>
            rw [hk] at hd
            have : k2 ≠ k := fun h => hd (by rw [h])
            simp [hd, ih, List.mem_cons, this, Ne.symm this]

theorem findByKey_some_mem {l : List TypeSystemDefinition}
    {k : DefKind × String} {d : TypeSystemDefinition}
    (h : findByKey l k = some d) : d ∈ l ∧ kindName d = some k := by
  induction l with
  | nil => simp [findByKey] at h
  | cons x rest ih =>
      simp only [findByKey] at h
      by_cases hx : kindName x = some k
      · simp [hx] at h
        subst h
        exact ⟨List.mem_cons_self _ _, hx⟩
      · simp [hx] at h
        obtain ⟨hmem, hkn⟩ := ih h
        exact ⟨List.mem_cons_of_mem _ hmem, hkn⟩

theorem dupKeys_iff {ks : List (DefKind × String)} :
    dupKeys ks = true ↔ ¬ ks.Nodup := by
  induction ks with
  | nil => simp [dupKeys]
  | cons k rest ih =>
      simp only [dupKeys, Bool.or_eq_true, decide_eq_true_eq, List.nodup_cons]
      constructor
      · rintro (h | h)
        · exact fun hc => hc.1 h
        · exact fun hc => (ih.mp h) hc.2
      · intro h
        by_cases hk : k ∈ rest
        · exact Or.inl hk
        · exact Or.inr (ih.mpr (fun hn => h ⟨hk, hn⟩))

theorem nodup_concat {α : Type} {l : List α} {a : α}
    (h : l.Nodup) (ha : a ∉ l) : (l ++ [a]).Nodup := by
  simp [List.nodup_append, h, ha]

/-! ## Helper lemmas: the definition merger -/

theorem mergeDef_kindName (d e : TypeSystemDefinition) :
    kindName (mergeDef d e) = kindName d := by
  cases d <;> cases e <;> rfl

theorem mergeDef_dirInfo (d e : TypeSystemDefinition) :
    directiveInfoOf (mergeDef d e) = directiveInfoOf d := by
  cases d <;> cases e <;> rfl

theorem updateByKey_keys (l : List TypeSystemDefinition)
    (k : DefKind × String) (e : TypeSystemDefinition) :
    keysOf (updateByKey l k e) = keysOf l := by
  induction l with
  | nil => rfl
  | cons d rest ih =>
      simp only [updateByKey]
      by_cases hd : kindName d = some k
      · simp [keysOf, mergeDef_kindName, hd]
      · rw [if_neg hd]
        simp only [keysOf]
        cases kindName d <;> simp [ih]

theorem updateByKey_dirInfos (l : List TypeSystemDefinition)
    (k : DefKind × String) (e : TypeSystemDefinition) :
    directiveInfosOf (updateByKey l k e) = directiveInfosOf l := by
  induction l with
  | nil => rfl
  | cons d rest ih =>
      simp only [updateByKey]
      by_cases hd : kindName d = some k
      · simp [directiveInfosOf, mergeDef_dirInfo, hd]
      · simp only [hd, if_false, directiveInfosOf]
        cases directiveInfoOf d <;> simp [ih]

theorem updateByKey_findByKey_ne {l : List TypeSystemDefinition}
    {k k2 : DefKind × String} (e : TypeSystemDefinition) (hne : k2 ≠ k) :
    findByKey (updateByKey l k e) k2 = findByKey l k2 := by
  induction l with
  | nil => rfl
  | cons d rest ih =>
      simp only [updateByKey]
      by_cases hd : kindName d = some k
      · have h2 : kindName (mergeDef d e) ≠ some k2 := by
          rw [mergeDef_kindName, hd]
          intro hc
          exact hne (Option.some.inj hc).symm
        have h3 : kindName d ≠ some k2 := by
          rw [hd]
          intro hc
          exact hne (Option.some.inj hc).symm
        rw [if_pos hd]
        simp only [findByKey]
        rw [if_neg h2, if_neg h3]
      · rw [if_neg hd]
        simp only [findByKey]
        by_cases h3 : kindName d = some k2
        · rw [if_pos h3, if_pos h3]
        · rw [if_neg h3, if_neg h3, ih]

theorem updateByKey_findByKey_eq {l : List TypeSystemDefinition}
    {k : DefKind × String} {B : TypeSystemDefinition}
    (e : TypeSystemDefinition) (h : findByKey l k = some B) :
    findByKey (updateByKey l k e) k = some (mergeDef B e) := by
  induction l with
  | nil => simp [findByKey] at h
  | cons d rest ih =>
      simp only [findByKey, updateByKey] at h ⊢
      by_cases hd : kindName d = some k
      · rw [if_pos hd] at h
        cases h
        rw [if_pos hd]
        simp only [findByKey]
        rw [if_pos (by rw [mergeDef_kindName]; exact hd)]
      · rw [if_neg hd] at h
        rw [if_neg hd]
        simp only [findByKey]
        rw [if_neg hd]
        exact ih h

/-! ## Helper lemmas: registering base definitions -/

theorem addBases_ok_eq {items acc t : List TypeSystemDefinition}
    (h : addBases items acc = .ok t) : t = acc ++ items := by
  induction items generalizing acc with
  | nil =>
      simp only [addBases] at h
      cases h
      simp
  | cons d rest ih =>
      simp only [addBases] at h
      split at h
      · have := ih h
        simpa [List.append_assoc] using this
      · split at h
        · simp at h
        · have := ih h
          simpa [List.append_assoc] using this

theorem addBases_err_shape {items acc : List TypeSystemDefinition}
    {e : SchemaError} (h : addBases items acc = .error e) :
    ∃ n, e = .duplicateDefinition n := by
  induction items generalizing acc with
  | nil => simp [addBases] at h
  | cons d rest ih =>
      simp only [addBases] at h
      split at h
      · exact ih h
      · rename_i k hk
        split at h
        · cases h
          exact ⟨k.2, rfl⟩
        · exact ih h

theorem addBases_nodup_of_ok {items acc t : List TypeSystemDefinition}
    (h : addBases items acc = .ok t) (hacc : (keysOf acc).Nodup) :
    (keysOf (acc ++ items)).Nodup := by
  induction items generalizing acc with
  | nil => simpa using hacc
  | cons d rest ih =>
      simp only [addBases] at h
      split at h
      · rename_i hk
        have hacc2 : (keysOf (acc ++ [d])).Nodup := by
          rw [keysOf_append]
          simpa [keysOf, hk] using hacc
        have := ih h hacc2
        rw [keysOf_append, keysOf_append] at this
        rw [keysOf_append]
        simp only [keysOf, hk] at this ⊢
        simpa [List.append_assoc] using this
      · rename_i k hk
        split at h
        · simp at h
        · rename_i hf
          have hnotin : k ∉ keysOf acc := findByKey_none_iff.mp hf
          have hacc2 : (keysOf (acc ++ [d])).Nodup := by
            rw [keysOf_append]
            simp only [keysOf, hk]
            exact nodup_concat hacc (by simpa using hnotin)
          have := ih h hacc2
          rw [keysOf_append, keysOf_append] at this
          rw [keysOf_append]
          simp only [keysOf, hk] at this ⊢
          simpa [List.append_assoc] using this

theorem addBases_ok_of_nodup {items acc : List TypeSystemDefinition}
    (h : (keysOf (acc ++ items)).Nodup) :
    addBases items acc = .ok (acc ++ items) := by
  induction items generalizing acc with
  | nil => simp [addBases]
  | cons d rest ih =>
      simp only [addBases]
      split
      · rename_i hk
        have h2 : (keysOf ((acc ++ [d]) ++ rest)).Nodup := by
          simpa [List.append_assoc] using h
        have := ih h2
        simpa [List.append_assoc] using this
      · rename_i k hk
        have hkeys : keysOf (acc ++ d :: rest) =
            keysOf acc ++ k :: keysOf rest := by
          rw [keysOf_append]
          simp [keysOf, hk]
        rw [hkeys] at h
        have hnotin : k ∉ keysOf acc := by
          intro hc
          have := (List.nodup_append.mp h).2.2
          exact this hc (List.mem_cons_self _ _)
        rw [(findByKey_none_iff.mpr hnotin : findByKey acc k = none)]
        have h2 : (keysOf ((acc ++ [d]) ++ rest)).Nodup := by
          rw [keysOf_append, keysOf_append]
          simp only [keysOf, hk]
          simpa [List.append_assoc] using h
        have := ih h2
        simpa [List.append_assoc] using this

/-! ## Helper lemmas: applying extensions -/

theorem isExtend_kindName {d : TypeSystemDefinition}
    (h : isExtend d = true) : kindName d = none := by
  cases d <;> simp [isExtend, extendTarget, kindName] at h ⊢

theorem isExtend_of_target {d : TypeSystemDefinition} {k : DefKind × String}
    (h : extendTarget d = some k) : isExtend d = true := by
  simp [isExtend, h]

theorem isExtend_dirInfo {d : TypeSystemDefinition}
    (h : isExtend d = true) : directiveInfoOf d = none := by
  cases d <;> simp [isExtend, extendTarget, directiveInfoOf] at h ⊢

theorem nonExtendItems_append (l1 l2 : List TypeSystemDefinition) :
    nonExtendItems (l1 ++ l2) = nonExtendItems l1 ++ nonExtendItems l2 := by
  simp [nonExtendItems]

theorem extendItems_append (l1 l2 : List TypeSystemDefinition) :
    extendItems (l1 ++ l2) = extendItems l1 ++ extendItems l2 := by
  simp [extendItems]

theorem keysOf_nonExtendItems (l : List TypeSystemDefinition) :
    keysOf (nonExtendItems l) = keysOf l := by
  induction l with
  | nil => rfl
  | cons d rest ih =>
      by_cases hd : isExtend d
      · have : kindName d = none := isExtend_kindName hd
        simp [nonExtendItems, List.filter_cons, hd, keysOf, this] at ih ⊢
        simpa [nonExtendItems] using ih
      · simp only [nonExtendItems, List.filter_cons] at ih ⊢
        simp only [hd]
        simp only [Bool.not_false, if_pos]
        simp only [keysOf]
        cases kindName d <;> simp [ih]

theorem dirInfos_nonExtendItems (l : List TypeSystemDefinition) :
    directiveInfosOf (nonExtendItems l) = directiveInfosOf l := by
  induction l with
  | nil => rfl
  | cons d rest ih =>
      by_cases hd : isExtend d
      · have : directiveInfoOf d = none := isExtend_dirInfo hd
        simp [nonExtendItems, List.filter_cons, hd, directiveInfosOf, this] at ih ⊢
        simpa [nonExtendItems] using ih
      · simp only [nonExtendItems, List.filter_cons] at ih ⊢
        simp only [hd]
        simp only [Bool.not_false, if_pos]
        simp only [directiveInfosOf]
        cases directiveInfoOf d <;> simpa [nonExtendItems] using ih

theorem extendItems_nil_of_all {l : List TypeSystemDefinition}
    (h : l.all (fun d => !isExtend d) = true) : extendItems l = [] := by
  induction l with
  | nil => rfl
  | cons d rest ih =>
      simp only [List.all_cons, Bool.and_eq_true, Bool.not_eq_true'] at h
      simp [extendItems, List.filter_cons, h.1]
      simpa [extendItems] using ih h.2

theorem mem_extendItems {l : List TypeSystemDefinition}
    {d : TypeSystemDefinition} (hd : d ∈ l) (he : isExtend d = true) :
    d ∈ extendItems l := by
  simp [extendItems, List.mem_filter, hd, he]

theorem applyExtend_ok_keys {t t2 : List TypeSystemDefinition}
    {e : TypeSystemDefinition} (h : applyExtend t e = .ok t2) :
    keysOf t2 = keysOf t := by
  simp only [applyExtend] at h
  split at h
  · cases h; rfl
  · split at h
    · simp at h
    · split at h
      · simp at h
      · cases h
        exact updateByKey_keys _ _ _

theorem applyExtend_ok_dirInfos {t t2 : List TypeSystemDefinition}
    {e : TypeSystemDefinition} (h : applyExtend t e = .ok t2) :
    directiveInfosOf t2 = directiveInfosOf t := by
  simp only [applyExtend] at h
  split at h
  · cases h; rfl
  · split at h
    · simp at h
    · split at h
      · simp at h
      · cases h
        exact updateByKey_dirInfos _ _ _

theorem applyExtend_ok_target {t t2 : List TypeSystemDefinition}
    {e : TypeSystemDefinition} {k : DefKind × String}
    (h : applyExtend t e = .ok t2) (hk : extendTarget e = some k) :
    k ∈ keysOf t := by
  simp only [applyExtend, hk] at h
  cases hf : findByKey t k with
  | none => rw [hf] at h; simp at h
  | some target =>
      by_contra hc
      rw [findByKey_none_iff.mpr hc] at hf
      cases hf

theorem applyExtends_ok_keys {items t m : List TypeSystemDefinition}
    (h : applyExtends items t = .ok m) : keysOf m = keysOf t := by
  induction items generalizing t with
  | nil => simp only [applyExtends] at h; cases h; rfl
  | cons e rest ih =>
      simp only [applyExtends] at h
      cases ha : applyExtend t e with
      | error err => rw [ha] at h; simp at h
      | ok t2 =>
          rw [ha] at h
          rw [ih h, applyExtend_ok_keys ha]

theorem applyExtends_ok_dirInfos {items t m : List TypeSystemDefinition}
    (h : applyExtends items t = .ok m) :
    directiveInfosOf m = directiveInfosOf t := by
  induction items generalizing t with
  | nil => simp only [applyExtends] at h; cases h; rfl
  | cons e rest ih =>
      simp only [applyExtends] at h
      cases ha : applyExtend t e with
      | error err => rw [ha] at h; simp at h
      | ok t2 =>
          rw [ha] at h
          rw [ih h, applyExtend_ok_dirInfos ha]

theorem applyExtends_ok_targets {items t m : List TypeSystemDefinition}
    (h : applyExtends items t = .ok m) :
    ∀ e ∈ items, ∀ k, extendTarget e = some k → k ∈ keysOf t := by
  induction items generalizing t with
  | nil => intro e he; simp at he
  | cons e0 rest ih =>
      simp only [applyExtends] at h
      cases ha : applyExtend t e0 with
      | error err => rw [ha] at h; simp at h
      | ok t2 =>
          rw [ha] at h
          intro e he k hk
          rcases List.mem_cons.mp he with he0 | hrest
          · subst he0
            exact applyExtend_ok_target ha hk
          · have := ih h e hrest k hk
            rwa [applyExtend_ok_keys ha] at this

theorem applyExtends_append_ok {l1 l2 t t2 : List TypeSystemDefinition}
    (h : applyExtends l1 t = .ok t2) :
    applyExtends (l1 ++ l2) t = applyExtends l2 t2 := by
  induction l1 generalizing t with
  | nil => simp only [applyExtends] at h; cases h; rfl
  | cons e rest ih =>
      simp only [applyExtends] at h
      cases ha : applyExtend t e with
      | error err => rw [ha] at h; simp at h
      | ok t3 =>
          rw [ha] at h
          simp only [List.cons_append, applyExtends, ha]
          exact ih h

theorem applyExtends_unrelated_preserve {items t m : List TypeSystemDefinition}
    {k : DefKind × String}
    (hun : ∀ e ∈ items, extendTarget e ≠ some k)
    (h : applyExtends items t = .ok m) :
    findByKey m k = findByKey t k := by
  induction items generalizing t with
  | nil => simp only [applyExtends] at h; cases h; rfl
  | cons e rest ih =>
      simp only [applyExtends] at h
      cases ha : applyExtend t e with
      | error err => rw [ha] at h; simp at h
      | ok t2 =>
          rw [ha] at h
          have hrest := ih (fun x hx => hun x (List.mem_cons_of_mem _ hx)) h
          rw [hrest]
          have he : extendTarget e ≠ some k := hun e (List.mem_cons_self _ _)
          simp only [applyExtend] at ha
          split at ha
          · cases ha; rfl
          · rename_i k2 hk2
            split at ha
            · simp at ha
            · split at ha
              · simp at ha
              · cases ha
                have : k ≠ k2 := by
                  intro hc
                  exact he (by rw [hc, hk2])
                exact updateByKey_findByKey_ne _ this

theorem consolidate_ok_parts {base ext m : List TypeSystemDefinition}
    (h : consolidate base ext = .ok m) :
    addBases (nonExtendItems (base ++ ext)) [] =
        .ok (nonExtendItems (base ++ ext)) ∧
    applyExtends (extendItems (base ++ ext)) (nonExtendItems (base ++ ext)) =
        .ok m := by
  simp only [consolidate] at h
  cases hab : addBases (nonExtendItems (base ++ ext)) [] with
  | error e => rw [hab] at h; simp at h
  | ok t =>
      have ht : t = nonExtendItems (base ++ ext) := by
        simpa using addBases_ok_eq hab
      subst ht
      rw [hab] at h
      exact ⟨rfl, h⟩

theorem consolidate_err_of_addBases {base ext : List TypeSystemDefinition}
    {e : SchemaError} (h : addBases (nonExtendItems (base ++ ext)) [] = .error e) :
    consolidate base ext = .error e := by
  simp only [consolidate, h]

theorem build_eq_of_consolidate_err {base ext : List TypeSystemDefinition}
    {e : SchemaError} (h : consolidate base ext = .error e) :
    Schema.build base ext = .error e := by
  simp only [Schema.build, h]

/-! ## Merger claims -/

theorem dup_key_build_error {base ext : List TypeSystemDefinition}
    (h : hasDuplicateKey base = true) :
    ∃ n, Schema.build base ext = .error (.duplicateDefinition n) := by
  cases hab : addBases (nonExtendItems (base ++ ext)) [] with
  | ok t =>
      exfalso
      have hnd := addBases_nodup_of_ok hab (by simp [keysOf])
      rw [List.nil_append, keysOf_nonExtendItems, keysOf_append] at hnd
      have hbase : (keysOf base).Nodup := (List.nodup_append.mp hnd).1
      exact (dupKeys_iff.mp h) hbase
  | error e =>
      obtain ⟨n, hn⟩ := addBases_err_shape hab
      subst hn
      exact ⟨n, build_eq_of_consolidate_err (consolidate_err_of_addBases hab)⟩

theorem build_schema_ok_doc (ds : List TypeSystemDefinition) :
    build_schema (.ok ds) = Schema.build (builtinDefs ++ ds) [] := rfl

/-- Claim C4: two base definitions (builtins plus server documents)
with the same (kind, name) make the build fail with
DuplicateDefinition; builtins are included first and subject to the
same uniqueness rule, so a server document that redefines a builtin
name also fails with DuplicateDefinition. -/
theorem duplicate_base_definition_fails :
    (∀ base ext : List TypeSystemDefinition, hasDuplicateKey base = true →
       ∃ n, Schema.build base ext = .error (.duplicateDefinition n)) ∧
    (∀ serverDefs : List TypeSystemDefinition,
       (∃ k, k ∈ keysOf builtinDefs ∧ k ∈ keysOf serverDefs) →
       ∃ n, build_schema (.ok serverDefs) = .error (.duplicateDefinition n)) := by
  constructor
  · intro base ext h
    exact dup_key_build_error h
  · intro serverDefs ⟨k, hkb, hks⟩
    rw [build_schema_ok_doc]
    apply dup_key_build_error
    apply dupKeys_iff.mpr
    rw [keysOf_append]
    intro hnd
    exact (List.nodup_append.mp hnd).2.2 hkb hks

/-- Witness for C4 at concrete inputs: a base declaring scalar A twice,
and a server document redefining the builtin scalar ID. -/
theorem duplicate_base_definition_fails_witness :
    (hasDuplicateKey dupBaseExample = true ∧
      ∃ n, Schema.build dupBaseExample [] = .error (.duplicateDefinition n)) ∧
    ((∃ k, k ∈ keysOf builtinDefs ∧ k ∈ keysOf [.scalarDef "ID" []]) ∧
      ∃ n, build_schema (.ok [.scalarDef "ID" []]) =
        .error (.duplicateDefinition n)) :=
  ⟨⟨by decide, duplicate_base_definition_fails.1 dupBaseExample [] (by decide)⟩,
   ⟨by decide, duplicate_base_definition_fails.2 [.scalarDef "ID" []] (by decide)⟩⟩

theorem unmatched_ext_no_success {base ext : List TypeSystemDefinition}
    {E : TypeSystemDefinition} {k : DefKind × String}
    (hE : E ∈ base ++ ext) (hk : extendTarget E = some k)
    (hno : decide (k ∈ keysOf (base ++ ext)) = false) :
    ∃ e, Schema.build base ext = .error e := by
  cases hb : Schema.build base ext with
  | error e => exact ⟨e, rfl⟩
  | ok s =>
      exfalso
      have hnotin : k ∉ keysOf (base ++ ext) := of_decide_eq_false hno
      simp only [Schema.build] at hb
      cases hc : consolidate base ext with
      | error e => rw [hc] at hb; simp at hb
      | ok m =>
          obtain ⟨_, happ⟩ := consolidate_ok_parts hc
          have hmem : E ∈ extendItems (base ++ ext) :=
            mem_extendItems hE (isExtend_of_target hk)
          have := applyExtends_ok_targets happ E hmem k hk
          rw [keysOf_nonExtendItems] at this
          exact hnotin this

theorem single_unmatched_ext_error {baseDefs : List TypeSystemDefinition}
    {E : TypeSystemDefinition} {k : DefKind × String}
    (hk : extendTarget E = some k)
    (hdup : hasDuplicateKey baseDefs = false)
    (hnoext : baseDefs.all (fun d => !isExtend d) = true)
    (hno : decide (k ∈ keysOf baseDefs) = false) :
    Schema.build baseDefs [E] = .error (.extensionOfUndefinedType k.2) := by
  have hnotin : k ∉ keysOf baseDefs := of_decide_eq_false hno
  have hnd : (keysOf (nonExtendItems (baseDefs ++ [E]))).Nodup := by
    rw [keysOf_nonExtendItems, keysOf_append]
    have : keysOf [E] = [] := by
      simp [keysOf, isExtend_kindName (isExtend_of_target hk)]
    rw [this, List.append_nil]
    by_contra hc
    rw [← dupKeys_iff] at hc
    rw [hasDuplicateKey] at hdup
    rw [hc] at hdup
    cases hdup
  have hab := @addBases_ok_of_nodup (nonExtendItems (baseDefs ++ [E])) []
    (by simpa using hnd)
  have hext : extendItems (baseDefs ++ [E]) = [E] := by
    rw [extendItems_append, extendItems_nil_of_all hnoext]
    simp [extendItems, List.filter_cons, isExtend_of_target hk]
  have hfind : findByKey (nonExtendItems (baseDefs ++ [E])) k = none := by
    apply findByKey_none_iff.mpr
    rw [keysOf_nonExtendItems, keysOf_append]
    have : keysOf [E] = [] := by
      simp [keysOf, isExtend_kindName (isExtend_of_target hk)]
    rw [this, List.append_nil]
    exact hnotin
  have happly : applyExtends [E] (nonExtendItems (baseDefs ++ [E])) =
      .error (.extensionOfUndefinedType k.2) := by
    simp only [applyExtends, applyExtend, hk, hfind]
  have hcons : consolidate baseDefs [E] = .error (.extensionOfUndefinedType k.2) := by
    simp only [consolidate]
    rw [List.nil_append] at hab
    rw [hab, hext]
    exact happly
  exact build_eq_of_consolidate_err hcons

/-- Claim C5 (amended): an extension definition whose (kind, name)
matches no plain definition anywhere makes the build fail; the error is
ExtensionOfUndefinedType whenever that unmatched extension is the only
defect (duplicate-free, extension-free base), and in particular the
spec's example — extending the undefined type Bar — fails with
ExtensionOfUndefinedType naming Bar.  The unamended claim (the error
kind is always ExtensionOfUndefinedType) is refuted by
`unmatched_extension_error_kind_cex`. -/
theorem unmatched_extension_fails :
    (∀ (base ext : List TypeSystemDefinition) (E : TypeSystemDefinition)
       (k : DefKind × String), E ∈ base ++ ext → extendTarget E = some k →
       decide (k ∈ keysOf (base ++ ext)) = false →
       ∃ e, Schema.build base ext = .error e) ∧
    (∀ (baseDefs : List TypeSystemDefinition) (E : TypeSystemDefinition)
       (k : DefKind × String), extendTarget E = some k →
       hasDuplicateKey baseDefs = false →
       baseDefs.all (fun d => !isExtend d) = true →
       decide (k ∈ keysOf baseDefs) = false →
       Schema.build baseDefs [E] = .error (.extensionOfUndefinedType k.2)) ∧
    build_schema_with_extensions [] [.ok [barExtension]] =
      .error (.extensionOfUndefinedType "Bar") := by
  refine ⟨?_, ?_, rfl⟩
  · intro base ext E k hE hk hno
    exact unmatched_ext_no_success hE hk hno
  · intro baseDefs E k hk hdup hnoext hno
    exact single_unmatched_ext_error hk hdup hnoext hno

/-- Counterexample to C5 as frozen: with an unmatched extension of Bar
present but the base declaring scalar B0 twice, the (first-error-wins)
build fails with DuplicateDefinition, not ExtensionOfUndefinedType. -/
theorem unmatched_extension_error_kind_cex :
    extendTarget barExtension = some (.objectKind, "Bar") ∧
    decide ((DefKind.objectKind, "Bar") ∈ keysOf (cexDupBase ++ [barExtension]))
      = false ∧
    Schema.build cexDupBase [barExtension] = .error (.duplicateDefinition "B0") :=
  ⟨rfl, by decide, rfl⟩

/-- Witness for C5 at concrete inputs: extending the absent Bar over a
clean one-scalar base fails, and with the exact error kind. -/
theorem unmatched_extension_fails_witness :
    (barExtension ∈ [TypeSystemDefinition.scalarDef "S5" []] ++ [barExtension] ∧
      extendTarget barExtension = some (.objectKind, "Bar") ∧
      ∃ e, Schema.build [.scalarDef "S5" []] [barExtension] = .error e) ∧
    Schema.build [.scalarDef "S5" []] [barExtension] =
      .error (.extensionOfUndefinedType "Bar") :=
  ⟨⟨by simp, rfl,
    unmatched_extension_fails.1 [.scalarDef "S5" []] [barExtension]
      barExtension (.objectKind, "Bar") (by simp) rfl (by decide)⟩,
   unmatched_extension_fails.2.1 [.scalarDef "S5" []] barExtension
     (.objectKind, "Bar") rfl (by decide) (by decide) (by decide)⟩

/-! ## Helper lemmas: phase-2 table growth -/

theorem not_extend_of_kindName {d : TypeSystemDefinition}
    {k : DefKind × String} (h : kindName d = some k) : isExtend d = false := by
  cases d <;> simp [kindName, isExtend, extendTarget] at h ⊢

theorem mem_nonExtendItems {l : List TypeSystemDefinition}
    {d : TypeSystemDefinition} (hd : d ∈ l) (he : isExtend d = false) :
    d ∈ nonExtendItems l := by
  simp [nonExtendItems, List.mem_filter, hd, he]

theorem mem_keysOf_of_mem {l : List TypeSystemDefinition}
    {d : TypeSystemDefinition} {k : DefKind × String}
    (hd : d ∈ l) (hk : kindName d = some k) : k ∈ keysOf l := by
  induction l with
  | nil => cases hd
  | cons x rest ih =>
      rcases List.mem_cons.mp hd with hx | hrest
      · subst hx
        simp [keysOf, hk]
      · simp only [keysOf]
        cases kindName x with
        | none => exact ih hrest
        | some k2 => exact List.mem_cons_of_mem _ (ih hrest)

theorem findByKey_of_mem_nodup {l : List TypeSystemDefinition}
    {d : TypeSystemDefinition} {k : DefKind × String}
    (hnd : (keysOf l).Nodup) (hd : d ∈ l) (hk : kindName d = some k) :
    findByKey l k = some d := by
  induction l with
  | nil => cases hd
  | cons x rest ih =>
      rcases List.mem_cons.mp hd with hx | hrest
      · subst hx
        simp [findByKey, hk]
      · simp only [findByKey]
        by_cases hxk : kindName x = some k
        · exfalso
          rw [keysOf, hxk] at hnd
          have := (List.nodup_cons.mp hnd).1
          exact this (mem_keysOf_of_mem hrest hk)
        · rw [if_neg hxk]
          apply ih _ hrest
          rw [keysOf] at hnd
          cases hx2 : kindName x with
          | none => rwa [hx2] at hnd
          | some k2 =>
              rw [hx2] at hnd
              exact (List.nodup_cons.mp hnd).2

theorem applyExtends_append_err {l1 l2 t : List TypeSystemDefinition}
    {e : SchemaError} (h : applyExtends l1 t = .error e) :
    applyExtends (l1 ++ l2) t = .error e := by
  induction l1 generalizing t with
  | nil => simp [applyExtends] at h
  | cons x rest ih =>
      simp only [applyExtends] at h
      cases ha : applyExtend t x with
      | error err =>
          rw [ha] at h
          cases h
          simp only [List.cons_append, applyExtends, ha]
      | ok t2 =>
          rw [ha] at h
          simp only [List.cons_append, applyExtends, ha]
          exact ih h

theorem addDef_mono {st : Phase1State} {s : Schema} {d : TypeSystemDefinition}
    {s2 : Schema} (h : addDefinition st s d = .ok s2) :
    s.scalars <+: s2.scalars ∧ s.objects <+: s2.objects ∧
    s.interfaces <+: s2.interfaces ∧ s.unions <+: s2.unions ∧
    s.enums <+: s2.enums ∧ s.inputObjects <+: s2.inputObjects ∧
    s.fields <+: s2.fields ∧ s.directives <+: s2.directives ∧
    s2.typeMap = s.typeMap := by
  cases d <;> simp only [addDefinition] at h <;> (repeat' split at h) <;>
    first
      | exact Except.noConfusion h
      | (cases h
         refine ⟨?_, ?_, ?_, ?_, ?_, ?_, ?_, ?_, ?_⟩ <;>
           first
             | exact List.prefix_refl _
             | exact List.prefix_append _ _
             | rfl)

theorem phase2_mono {st : Phase1State} {defs : List TypeSystemDefinition}
    {s0 s : Schema} (h : phase2 st defs s0 = .ok s) :
    s0.scalars <+: s.scalars ∧ s0.objects <+: s.objects ∧
    s0.interfaces <+: s.interfaces ∧ s0.unions <+: s.unions ∧
    s0.enums <+: s.enums ∧ s0.inputObjects <+: s.inputObjects ∧
    s0.fields <+: s.fields ∧ s0.directives <+: s.directives ∧
    s.typeMap = s0.typeMap := by
  induction defs generalizing s0 with
  | nil =>
      simp only [phase2] at h
      cases h
      exact ⟨List.prefix_refl _, List.prefix_refl _, List.prefix_refl _,
             List.prefix_refl _, List.prefix_refl _, List.prefix_refl _,
             List.prefix_refl _, List.prefix_refl _, rfl⟩
  | cons d rest ih =>
      simp only [phase2] at h
      cases ha : addDefinition st s0 d with
      | error e => rw [ha] at h; simp at h
      | ok s1 =>
          rw [ha] at h
          obtain ⟨a1, a2, a3, a4, a5, a6, a7, a8, a9⟩ := addDef_mono ha
          obtain ⟨b1, b2, b3, b4, b5, b6, b7, b8, b9⟩ := ih h
          exact ⟨a1.trans b1, a2.trans b2, a3.trans b3, a4.trans b4,
                 a5.trans b5, a6.trans b6, a7.trans b7, a8.trans b8,
                 b9.trans a9⟩

theorem addDef_enum {st : Phase1State} {s : Schema} {n : String}
    {ds : List DirectiveApp} {vs : List String} {s2 : Schema}
    (h : addDefinition st s (.enumDef n ds vs) = .ok s2) :
    ∃ ds2, s2 = { s with enums := s.enums ++ [⟨n, vs, ds2⟩] } := by
  simp only [addDefinition] at h
  split at h
  · simp at h
  · rename_i ds2 _
    cases h
    exact ⟨ds2, rfl⟩

theorem addDef_inputObject {st : Phase1State} {s : Schema} {n : String}
    {ds : List DirectiveApp} {ifl : List InputValueDefinition} {s2 : Schema}
    (h : addDefinition st s (.inputObjectDef n ds ifl) = .ok s2) :
    ∃ args ds2, s2 = { s with inputObjects := s.inputObjects ++ [⟨n, args, ds2⟩] } ∧
      resolveArgumentDefs st.typeMap ifl = .ok args := by
  simp only [addDefinition] at h
  split at h
  · simp at h
  · rename_i args hargs
    split at h
    · simp at h
    · rename_i ds2 _
      cases h
      exact ⟨args, ds2, rfl, hargs⟩

theorem addDef_object {st : Phase1State} {s : Schema} {n : String}
    {ifs : List String} {ds : List DirectiveApp} {flds : List FieldDefinition}
    {s2 : Schema} (h : addDefinition st s (.objectDef n ifs ds flds) = .ok s2) :
    ∃ iids ds2 fs,
      s2 = { s with
             objects := s.objects ++
               [⟨n, List.range' s.fields.length fs.length, iids, ds2⟩],
             fields := s.fields ++ fs } ∧
      resolveFields st (lookupName st.typeMap n) flds = .ok fs := by
  simp only [addDefinition] at h
  split at h
  · simp at h
  · rename_i iids _
    split at h
    · simp at h
    · rename_i ds2 _
      split at h
      · simp at h
      · rename_i fs hfs
        cases h
        exact ⟨iids, ds2, fs, rfl, hfs⟩

theorem resolveArgumentDefs_names {tm : List (String × TypeId)}
    {ivs : List InputValueDefinition} {args : List Argument}
    (h : resolveArgumentDefs tm ivs = .ok args) :
    args.map Argument.name = ivs.map InputValueDefinition.name := by
  induction ivs generalizing args with
  | nil => simp only [resolveArgumentDefs] at h; cases h; rfl
  | cons iv rest ih =>
      simp only [resolveArgumentDefs] at h
      split at h
      · simp at h
      · split at h
        · simp at h
        · rename_i args2 hargs2
          cases h
          simp [ih hargs2]

theorem resolveFields_names {st : Phase1State} {p : Option TypeId}
    {flds : List FieldDefinition} {fs : List Field}
    (h : resolveFields st p flds = .ok fs) :
    fs.map Field.name = flds.map FieldDefinition.name := by
  induction flds generalizing fs with
  | nil => simp only [resolveFields] at h; cases h; rfl
  | cons f rest ih =>
      simp only [resolveFields] at h
      split at h
      · simp at h
      · split at h
        · simp at h
        · split at h
          · simp at h
          · split at h
            · simp at h
            · rename_i fs2 hfs2
              cases h
              simp [ih hfs2]

theorem getNames_append_range (pre fs : List Field) :
    (List.range' pre.length fs.length).map
        (fun i => (((pre ++ fs)[i]?).map Field.name).getD "") =
      fs.map Field.name := by
  induction fs generalizing pre with
  | nil => simp
  | cons f rest ih =>
      have hlen : (pre ++ [f]).length = pre.length + 1 := by simp
      have hstep := ih (pre ++ [f])
      rw [hlen] at hstep
      rw [List.append_assoc] at hstep
      simp only [List.singleton_append] at hstep
      simp only [List.length_cons, List.range']
      simp only [List.map_cons]
      rw [hstep]
      have hhead : (pre ++ f :: rest)[pre.length]? = some f := by
        rw [List.getElem?_append_right (Nat.le_refl _)]
        simp
      rw [hhead]
      simp

theorem mem_range'_lt {i s n : Nat} (h : i ∈ List.range' s n) : i < s + n :=
  (List.mem_range'_1.mp h).2

theorem objectFieldNames_stable {s s2 : Schema} {o : Object}
    (hpre : s.fields <+: s2.fields)
    (hb : ∀ i ∈ o.fields, i < s.fields.length) :
    objectFieldNames s2 o = objectFieldNames s o := by
  obtain ⟨t, ht⟩ := hpre
  apply List.map_congr_left
  intro i hi
  rw [← ht, List.getElem?_append_left (hb i hi)]

/-! ## Helper lemmas: entities created by phase 2 -/

theorem phase2_enum_exists {st : Phase1State} {defs : List TypeSystemDefinition}
    {s0 s : Schema} {n : String} {ds : List DirectiveApp} {vs : List String}
    (h : phase2 st defs s0 = .ok s) (hmem : (.enumDef n ds vs) ∈ defs) :
    ∃ en : Enum, en ∈ s.enums ∧ en.name = n ∧ en.values = vs := by
  induction defs generalizing s0 with
  | nil => cases hmem
  | cons d rest ih =>
      simp only [phase2] at h
      cases ha : addDefinition st s0 d with
      | error e => rw [ha] at h; simp at h
      | ok s1 =>
          rw [ha] at h
          rcases List.mem_cons.mp hmem with hd | hrest
          · subst hd
            obtain ⟨ds2, hs1⟩ := addDef_enum ha
            subst hs1
            have hsub := (phase2_mono h).2.2.2.2.1.subset
            refine ⟨⟨n, vs, ds2⟩, hsub ?_, rfl, rfl⟩
            simp
          · exact ih h hrest

theorem phase2_inputObject_exists {st : Phase1State}
    {defs : List TypeSystemDefinition} {s0 s : Schema} {n : String}
    {ds : List DirectiveApp} {ifl : List InputValueDefinition}
    (h : phase2 st defs s0 = .ok s) (hmem : (.inputObjectDef n ds ifl) ∈ defs) :
    ∃ io : InputObject, io ∈ s.inputObjects ∧ io.name = n ∧
      io.fields.map Argument.name = ifl.map InputValueDefinition.name := by
  induction defs generalizing s0 with
  | nil => cases hmem
  | cons d rest ih =>
      simp only [phase2] at h
      cases ha : addDefinition st s0 d with
      | error e => rw [ha] at h; simp at h
      | ok s1 =>
          rw [ha] at h
          rcases List.mem_cons.mp hmem with hd | hrest
          · subst hd
            obtain ⟨args, ds2, hs1, hargs⟩ := addDef_inputObject ha
            subst hs1
            have hsub := (phase2_mono h).2.2.2.2.2.1.subset
            refine ⟨⟨n, args, ds2⟩, hsub ?_, rfl,
              resolveArgumentDefs_names hargs⟩
            simp
          · exact ih h hrest

theorem phase2_object_exists {st : Phase1State}
    {defs : List TypeSystemDefinition} {s0 s : Schema} {n : String}
    {ifs : List String} {ds : List DirectiveApp} {flds : List FieldDefinition}
    (h : phase2 st defs s0 = .ok s) (hmem : (.objectDef n ifs ds flds) ∈ defs) :
    ∃ o : Object, o ∈ s.objects ∧ o.name = n ∧
      objectFieldNames s o = flds.map FieldDefinition.name := by
  induction defs generalizing s0 with
  | nil => cases hmem
  | cons d rest ih =>
      simp only [phase2] at h
      cases ha : addDefinition st s0 d with
      | error e => rw [ha] at h; simp at h
      | ok s1 =>
          rw [ha] at h
          rcases List.mem_cons.mp hmem with hd | hrest
          · subst hd
            obtain ⟨iids, ds2, fs, hs1, hfs⟩ := addDef_object ha
            subst hs1
            set o : Object :=
              ⟨n, List.range' s0.fields.length fs.length, iids, ds2⟩ with ho
            have hmono := phase2_mono h
            have hmemo : o ∈ s.objects := by
              apply hmono.2.1.subset
              simp
            have hbound : ∀ i ∈ o.fields, i < (s0.fields ++ fs).length := by
              intro i hi
              rw [ho] at hi
              simp only [List.length_append]
              exact mem_range'_lt hi
            have hstable := @objectFieldNames_stable { s0 with
                objects := s0.objects ++ [o], fields := s0.fields ++ fs }
              s o hmono.2.2.2.2.2.2.1 hbound
            refine ⟨o, hmemo, rfl, ?_⟩
            rw [hstable]
            have : objectFieldNames { s0 with
                objects := s0.objects ++ [o], fields := s0.fields ++ fs } o =
                fs.map Field.name := by
              simp only [objectFieldNames, ho]
              exact getNames_append_range s0.fields fs
            rw [this]
            exact resolveFields_names hfs
          · exact ih h hrest

theorem addDef_names {st : Phase1State} {s : Schema} {d : TypeSystemDefinition}
    {s2 : Schema} (h : addDefinition st s d = .ok s2) :
    s2.scalars.map Scalar.name =
      s.scalars.map Scalar.name ++ defNameIfKind .scalarKind d ∧
    s2.objects.map Object.name =
      s.objects.map Object.name ++ defNameIfKind .objectKind d ∧
    s2.interfaces.map Interface.name =
      s.interfaces.map Interface.name ++ defNameIfKind .interfaceKind d ∧
    s2.unions.map Union.name =
      s.unions.map Union.name ++ defNameIfKind .unionKind d ∧
    s2.enums.map Enum.name =
      s.enums.map Enum.name ++ defNameIfKind .enumKind d ∧
    s2.inputObjects.map InputObject.name =
      s.inputObjects.map InputObject.name ++ defNameIfKind .inputObjectKind d := by
  cases d <;> simp only [addDefinition] at h <;> (repeat' split at h) <;>
    first
      | exact Except.noConfusion h
      | (cases h
         refine ⟨?_, ?_, ?_, ?_, ?_, ?_⟩ <;> simp [defNameIfKind, kindName])

theorem phase2_kind_names {st : Phase1State} {defs : List TypeSystemDefinition}
    {s0 s : Schema} (h : phase2 st defs s0 = .ok s) :
    s.scalars.map Scalar.name =
      s0.scalars.map Scalar.name ++ kindNamesOf .scalarKind defs ∧
    s.objects.map Object.name =
      s0.objects.map Object.name ++ kindNamesOf .objectKind defs ∧
    s.interfaces.map Interface.name =
      s0.interfaces.map Interface.name ++ kindNamesOf .interfaceKind defs ∧
    s.unions.map Union.name =
      s0.unions.map Union.name ++ kindNamesOf .unionKind defs ∧
    s.enums.map Enum.name =
      s0.enums.map Enum.name ++ kindNamesOf .enumKind defs ∧
    s.inputObjects.map InputObject.name =
      s0.inputObjects.map InputObject.name ++ kindNamesOf .inputObjectKind defs := by
  induction defs generalizing s0 with
  | nil =>
      simp only [phase2] at h
      cases h
      refine ⟨?_, ?_, ?_, ?_, ?_, ?_⟩ <;> simp [kindNamesOf]
  | cons d rest ih =>
      simp only [phase2] at h
      cases ha : addDefinition st s0 d with
      | error e => rw [ha] at h; exact Except.noConfusion h
      | ok s1 =>
          rw [ha] at h
          obtain ⟨a1, a2, a3, a4, a5, a6⟩ := addDef_names ha
          obtain ⟨b1, b2, b3, b4, b5, b6⟩ := ih h
          refine ⟨?_, ?_, ?_, ?_, ?_, ?_⟩ <;>
            simp only [kindNamesOf] <;>
            first
              | (rw [b1, a1]; simp [List.append_assoc])
              | (rw [b2, a2]; simp [List.append_assoc])
              | (rw [b3, a3]; simp [List.append_assoc])
              | (rw [b4, a4]; simp [List.append_assoc])
              | (rw [b5, a5]; simp [List.append_assoc])
              | (rw [b6, a6]; simp [List.append_assoc])

theorem addDef_interface {st : Phase1State} {s : Schema} {n : String}
    {ifs : List String} {ds : List DirectiveApp} {flds : List FieldDefinition}
    {s2 : Schema}
    (h : addDefinition st s (.interfaceDef n ifs ds flds) = .ok s2) :
    ∃ iids ds2 fs,
      s2 = { s with
             interfaces := s.interfaces ++
               [⟨n, List.range' s.fields.length fs.length, iids, ds2⟩],
             fields := s.fields ++ fs } ∧
      resolveFields st (lookupName st.typeMap n) flds = .ok fs := by
  simp only [addDefinition] at h
  split at h
  · simp at h
  · rename_i iids _
    split at h
    · simp at h
    · rename_i ds2 _
      split at h
      · simp at h
      · rename_i fs hfs
        cases h
        exact ⟨iids, ds2, fs, rfl, hfs⟩

theorem interfaceFieldNames_stable {s s2 : Schema} {i : Interface}
    (hpre : s.fields <+: s2.fields)
    (hb : ∀ j ∈ i.fields, j < s.fields.length) :
    interfaceFieldNames s2 i = interfaceFieldNames s i := by
  obtain ⟨t, ht⟩ := hpre
  apply List.map_congr_left
  intro j hj
  rw [← ht, List.getElem?_append_left (hb j hj)]

theorem phase2_interface_exists {st : Phase1State}
    {defs : List TypeSystemDefinition} {s0 s : Schema} {n : String}
    {ifs : List String} {ds : List DirectiveApp} {flds : List FieldDefinition}
    (h : phase2 st defs s0 = .ok s)
    (hmem : (.interfaceDef n ifs ds flds) ∈ defs) :
    ∃ i : Interface, i ∈ s.interfaces ∧ i.name = n ∧
      interfaceFieldNames s i = flds.map FieldDefinition.name := by
  induction defs generalizing s0 with
  | nil => cases hmem
  | cons d rest ih =>
      simp only [phase2] at h
      cases ha : addDefinition st s0 d with
      | error e => rw [ha] at h; simp at h
      | ok s1 =>
          rw [ha] at h
          rcases List.mem_cons.mp hmem with hd | hrest
          · subst hd
            obtain ⟨iids, ds2, fs, hs1, hfs⟩ := addDef_interface ha
            subst hs1
            set i : Interface :=
              ⟨n, List.range' s0.fields.length fs.length, iids, ds2⟩ with hi
            have hmono := phase2_mono h
            have hmemi : i ∈ s.interfaces := by
              apply hmono.2.2.1.subset
              simp
            have hbound : ∀ j ∈ i.fields, j < (s0.fields ++ fs).length := by
              intro j hj
              rw [hi] at hj
              simp only [List.length_append]
              exact mem_range'_lt hj
            have hstable := @interfaceFieldNames_stable { s0 with
                interfaces := s0.interfaces ++ [i], fields := s0.fields ++ fs }
              s i hmono.2.2.2.2.2.2.1 hbound
            refine ⟨i, hmemi, rfl, ?_⟩
            rw [hstable]
            have : interfaceFieldNames { s0 with
                interfaces := s0.interfaces ++ [i],
                fields := s0.fields ++ fs } i = fs.map Field.name := by
              simp only [interfaceFieldNames, hi]
              exact getNames_append_range s0.fields fs
            rw [this]
            exact resolveFields_names hfs
          · exact ih h hrest

theorem addDef_union {st : Phase1State} {s : Schema} {n : String}
    {ds : List DirectiveApp} {ms : List String} {s2 : Schema}
    (h : addDefinition st s (.unionDef n ds ms) = .ok s2) :
    ∃ mids ds2, s2 = { s with unions := s.unions ++ [⟨n, mids, ds2⟩] } ∧
      resolveMemberNames st.typeMap ms = .ok mids := by
  simp only [addDefinition] at h
  split at h
  · simp at h
  · rename_i mids hmids
    split at h
    · simp at h
    · rename_i ds2 _
      cases h
      exact ⟨mids, ds2, rfl, hmids⟩

theorem phase2_union_exists {st : Phase1State}
    {defs : List TypeSystemDefinition} {s0 s : Schema} {n : String}
    {ds : List DirectiveApp} {ms : List String}
    (h : phase2 st defs s0 = .ok s) (hmem : (.unionDef n ds ms) ∈ defs) :
    ∃ un : Union, un ∈ s.unions ∧ un.name = n ∧
      resolveMemberNames st.typeMap ms = .ok un.members := by
  induction defs generalizing s0 with
  | nil => cases hmem
  | cons d rest ih =>
      simp only [phase2] at h
      cases ha : addDefinition st s0 d with
      | error e => rw [ha] at h; simp at h
      | ok s1 =>
          rw [ha] at h
          rcases List.mem_cons.mp hmem with hd | hrest
          · subst hd
            obtain ⟨mids, ds2, hs1, hmids⟩ := addDef_union ha
            subst hs1
            have hsub := (phase2_mono h).2.2.2.1.subset
            refine ⟨⟨n, mids, ds2⟩, hsub ?_, rfl, hmids⟩
            simp
          · exact ih h hrest

theorem resolveMemberNames_zip {tm : List (String × TypeId)}
    {ms : List String} {mids : List Nat}
    (h : resolveMemberNames tm ms = .ok mids) :
    mids.length = ms.length ∧
    ∀ p ∈ ms.zip mids, lookupName tm p.1 = some (.object p.2) := by
  induction ms generalizing mids with
  | nil =>
      simp only [resolveMemberNames] at h
      cases h
      exact ⟨rfl, by intro p hp; simp at hp⟩
  | cons nm rest ih =>
      simp only [resolveMemberNames] at h
      split at h
      · exact Except.noConfusion h
      · rename_i t hl
        split at h <;> try exact Except.noConfusion h
        rename_i i
        split at h
        · exact Except.noConfusion h
        · rename_i mids2 hrec
          cases h
          obtain ⟨hlen, hzip⟩ := ih hrec
          refine ⟨by simp [hlen], ?_⟩
          intro p hp
          rw [List.zip_cons_cons] at hp
          rcases List.mem_cons.mp hp with hp1 | hp2
          · subst hp1
            exact hl
          · exact hzip p hp2

theorem phase1Step_object_index {st : Phase1State} {d : TypeSystemDefinition}
    {st2 : Phase1State} (h : phase1Step st d = .ok st2) (ns : List String)
    (hcount : st.objectCount = ns.length)
    (hInv : ∀ p ∈ st.typeMap, ∀ i, p.2 = .object i → ns[i]? = some p.1) :
    st2.objectCount = (ns ++ defNameIfKind .objectKind d).length ∧
    ∀ p ∈ st2.typeMap, ∀ i, p.2 = .object i →
      (ns ++ defNameIfKind .objectKind d)[i]? = some p.1 := by
  have hold : ∀ (tail : List String) (p : String × TypeId), p ∈ st.typeMap →
      ∀ i, p.2 = .object i → (ns ++ tail)[i]? = some p.1 := by
    intro tail p hp i hpi
    have hns := hInv p hp i hpi
    have hlt : i < ns.length := by
      by_contra hge
      push_neg at hge
      rw [List.getElem?_eq_none hge] at hns
      exact Option.noConfusion hns
    rw [List.getElem?_append_left hlt]
    exact hns
  cases d <;> simp only [phase1Step] at h <;> (repeat' split at h) <;>
    first
      | exact Except.noConfusion h
      | (cases h
         refine ⟨by simp [defNameIfKind, kindName, hcount], ?_⟩
         intro p hp i hpi
         first
           | exact hold _ p hp i hpi
           | (rcases List.mem_append.mp hp with hp1 | hp2
              · exact hold _ p hp1 i hpi
              · simp only [List.mem_singleton] at hp2
                subst hp2
                cases hpi <;>
                  (simp only [defNameIfKind, kindName]
                   rw [hcount, List.getElem?_append_right (Nat.le_refl _)]
                   simp)))

theorem phase1_object_index {defs : List TypeSystemDefinition}
    {st st2 : Phase1State} (h : phase1 defs st = .ok st2) (ns : List String)
    (hcount : st.objectCount = ns.length)
    (hInv : ∀ p ∈ st.typeMap, ∀ i, p.2 = .object i → ns[i]? = some p.1) :
    ∀ p ∈ st2.typeMap, ∀ i, p.2 = .object i →
      (ns ++ kindNamesOf .objectKind defs)[i]? = some p.1 := by
  induction defs generalizing st ns with
  | nil =>
      simp only [phase1] at h
      cases h
      intro p hp i hpi
      simpa [kindNamesOf] using hInv p hp i hpi
  | cons d rest ih =>
      simp only [phase1] at h
      cases hstep : phase1Step st d with
      | error e => rw [hstep] at h; exact Except.noConfusion h
      | ok st1 =>
          rw [hstep] at h
          obtain ⟨hc1, hI1⟩ := phase1Step_object_index hstep ns hcount hInv
          intro p hp i hpi
          have := ih h (ns ++ defNameIfKind .objectKind d) hc1 hI1 p hp i hpi
          simpa [kindNamesOf, List.append_assoc] using this

theorem memberNames_of_zip {s : Schema} {tm : List (String × TypeId)}
    (hidx : ∀ p ∈ tm, ∀ i, p.2 = .object i →
      (s.objects.map Object.name)[i]? = some p.1) :
    ∀ (ms : List String) (mids : List Nat), mids.length = ms.length →
      (∀ p ∈ ms.zip mids, lookupName tm p.1 = some (.object p.2)) →
      mids.map (fun j => (s.objects[j]?.map Object.name).getD "") = ms := by
  intro ms
  induction ms with
  | nil =>
      intro mids hlen _
      rw [List.eq_nil_of_length_eq_zero hlen]
      rfl
  | cons nm rest ih =>
      intro mids hlen hz
      cases mids with
      | nil => simp at hlen
      | cons j mids2 =>
          have h1 := hz (nm, j)
            (by rw [List.zip_cons_cons]; exact List.mem_cons_self _ _)
          have hmem := lookupName_mem h1
          have hname := hidx (nm, TypeId.object j) hmem j rfl
          rw [List.getElem?_map] at hname
          simp only [List.map_cons]
          have h2 : (s.objects[j]?.map Object.name).getD "" = nm := by
            rw [hname]
            rfl
          rw [h2, ih mids2 (by simpa using hlen)
            (fun p hp => hz p
              (by rw [List.zip_cons_cons]; exact List.mem_cons_of_mem _ hp))]

theorem extendTarget_interface_inv {E : TypeSystemDefinition} {n : String}
    (h : extendTarget E = some (.interfaceKind, n)) :
    ∃ ifs ds fs, E = .interfaceExt n ifs ds fs := by
  cases E <;> simp [extendTarget] at h
  case interfaceExt nm ifs ds fs =>
    subst h
    exact ⟨ifs, ds, fs, rfl⟩

theorem extendTarget_union_inv {E : TypeSystemDefinition} {n : String}
    (h : extendTarget E = some (.unionKind, n)) :
    ∃ ds ms, E = .unionExt n ds ms := by
  cases E <;> simp [extendTarget] at h
  case unionExt nm ds ms =>
    subst h
    exact ⟨ds, ms, rfl⟩

theorem mergeDef_children {B E : TypeSystemDefinition} {k : DefKind × String}
    (hB : kindName B = some k) (hE : extendTarget E = some k) :
    fieldsOfDef (mergeDef B E) = fieldsOfDef B ++ fieldsOfDef E ∧
    membersOfDef (mergeDef B E) = membersOfDef B ++ membersOfDef E ∧
    valuesOfDef (mergeDef B E) = valuesOfDef B ++ valuesOfDef E ∧
    inputFieldsOfDef (mergeDef B E) = inputFieldsOfDef B ++ inputFieldsOfDef E := by
  cases B <;> simp only [kindName] at hB <;>
    first
      | exact Option.noConfusion hB
      | (cases hB
         cases E <;>
           simp_all [extendTarget, mergeDef, fieldsOfDef, membersOfDef,
             valuesOfDef, inputFieldsOfDef])

theorem extendTarget_enum_inv {E : TypeSystemDefinition} {n : String}
    (h : extendTarget E = some (.enumKind, n)) :
    ∃ ds vs, E = .enumExt n ds vs := by
  cases E <;> simp [extendTarget] at h
  case enumExt nm ds vs =>
    subst h
    exact ⟨ds, vs, rfl⟩

theorem extendTarget_object_inv {E : TypeSystemDefinition} {n : String}
    (h : extendTarget E = some (.objectKind, n)) :
    ∃ ifs ds fs, E = .objectExt n ifs ds fs := by
  cases E <;> simp [extendTarget] at h
  case objectExt nm ifs ds fs =>
    subst h
    exact ⟨ifs, ds, fs, rfl⟩

theorem extendTarget_inputObject_inv {E : TypeSystemDefinition} {n : String}
    (h : extendTarget E = some (.inputObjectKind, n)) :
    ∃ ds fs, E = .inputObjectExt n ds fs := by
  cases E <;> simp [extendTarget] at h
  case inputObjectExt nm ds fs =>
    subst h
    exact ⟨ds, fs, rfl⟩

theorem build_ok_parts {base ext : List TypeSystemDefinition} {s : Schema}
    (h : Schema.build base ext = .ok s) :
    ∃ m, consolidate base ext = .ok m ∧ resolveSchema m = .ok s := by
  simp only [Schema.build] at h
  cases hc : consolidate base ext with
  | error e => rw [hc] at h; exact Except.noConfusion h
  | ok m => rw [hc] at h; exact ⟨m, rfl, h⟩

theorem resolveSchema_ok_parts {m : List TypeSystemDefinition} {s : Schema}
    (h : resolveSchema m = .ok s) :
    ∃ st, phase1 m initPhase1 = .ok st ∧
      phase2 st m { emptySchema with typeMap := st.typeMap } = .ok s := by
  simp only [resolveSchema] at h
  cases hp : phase1 m initPhase1 with
  | error e => rw [hp] at h; exact Except.noConfusion h
  | ok st => rw [hp] at h; exact ⟨st, rfl, h⟩

/-- Claim C6: for a base definition B and the one extension E of the
same (kind, name) in a successful build, the consolidated definition's
child lists are B's lists concatenated with E's, whatever unrelated
extensions surround E; and the resulting entity reflects this for every
extensible kind carrying children — enum values directly, object and
interface field names read back through the field table, union member
names read back through the object table, and input-object field names
— always in B-then-E order. -/
theorem extension_appends_children
    (base pre post : List TypeSystemDefinition) (B E : TypeSystemDefinition)
    (k : DefKind × String) (s : Schema)
    (hs : Schema.build base (pre ++ E :: post) = .ok s)
    (hB : B ∈ base) (hkB : kindName B = some k)
    (hkE : extendTarget E = some k)
    (hbase : ∀ d ∈ base, extendTarget d ≠ some k)
    (hpre : ∀ d ∈ pre, extendTarget d ≠ some k)
    (hpost : ∀ d ∈ post, extendTarget d ≠ some k) :
    ∃ m, consolidate base (pre ++ E :: post) = .ok m ∧
      (∃ d, findByKey m k = some d ∧
        fieldsOfDef d = fieldsOfDef B ++ fieldsOfDef E ∧
        membersOfDef d = membersOfDef B ++ membersOfDef E ∧
        valuesOfDef d = valuesOfDef B ++ valuesOfDef E ∧
        inputFieldsOfDef d = inputFieldsOfDef B ++ inputFieldsOfDef E) ∧
      (∀ n ds vs, B = .enumDef n ds vs →
        ∃ en : Enum, en ∈ s.enums ∧ en.name = n ∧
          en.values = vs ++ valuesOfDef E) ∧
      (∀ n ifs ds flds, B = .objectDef n ifs ds flds →
        ∃ o : Object, o ∈ s.objects ∧ o.name = n ∧
          objectFieldNames s o =
            (flds ++ fieldsOfDef E).map FieldDefinition.name) ∧
      (∀ n ds ifl, B = .inputObjectDef n ds ifl →
        ∃ io : InputObject, io ∈ s.inputObjects ∧ io.name = n ∧
          io.fields.map Argument.name =
            (ifl ++ inputFieldsOfDef E).map InputValueDefinition.name) ∧
      (∀ n ifs ds flds, B = .interfaceDef n ifs ds flds →
        ∃ i : Interface, i ∈ s.interfaces ∧ i.name = n ∧
          interfaceFieldNames s i =
            (flds ++ fieldsOfDef E).map FieldDefinition.name) ∧
      (∀ n ds ms, B = .unionDef n ds ms →
        ∃ un : Union, un ∈ s.unions ∧ un.name = n ∧
          unionMemberNames s un = ms ++ membersOfDef E) := by
  obtain ⟨m, hc, hrs⟩ := build_ok_parts hs
  obtain ⟨hab, happ⟩ := consolidate_ok_parts hc
  have hall : B ∈ base ++ (pre ++ E :: post) := List.mem_append_left _ hB
  have hnd : (keysOf (nonExtendItems (base ++ (pre ++ E :: post)))).Nodup := by
    have := addBases_nodup_of_ok hab (by simp [keysOf])
    simpa using this
  have hfind_t : findByKey (nonExtendItems (base ++ (pre ++ E :: post))) k
      = some B :=
    findByKey_of_mem_nodup hnd
      (mem_nonExtendItems hall (not_extend_of_kindName hkB)) hkB
  have heq1 : extendItems (base ++ (pre ++ E :: post)) =
      (extendItems base ++ extendItems pre) ++ (E :: extendItems post) := by
    rw [extendItems_append, extendItems_append]
    have : extendItems (E :: post) = E :: extendItems post := by
      simp [extendItems, List.filter_cons, isExtend_of_target hkE]
    rw [this, List.append_assoc]
  have hun1 : ∀ e ∈ extendItems base ++ extendItems pre,
      extendTarget e ≠ some k := by
    intro e he
    rcases List.mem_append.mp he with h1 | h2
    · exact hbase e (List.mem_filter.mp h1).1
    · exact hpre e (List.mem_filter.mp h2).1
  have hun2 : ∀ e ∈ extendItems post, extendTarget e ≠ some k := by
    intro e he
    exact hpost e (List.mem_filter.mp he).1
  rw [heq1] at happ
  cases h1 : applyExtends (extendItems base ++ extendItems pre)
      (nonExtendItems (base ++ (pre ++ E :: post))) with
  | error err =>
      rw [applyExtends_append_err h1] at happ
      exact Except.noConfusion happ
  | ok t1 =>
      rw [applyExtends_append_ok h1] at happ
      have hfind1 : findByKey t1 k = some B := by
        rw [applyExtends_unrelated_preserve hun1 h1]
        exact hfind_t
      simp only [applyExtends] at happ
      cases hae : applyExtend t1 E with
      | error err => rw [hae] at happ; exact Except.noConfusion happ
      | ok t2 =>
          rw [hae] at happ
          simp only [applyExtend, hkE, hfind1] at hae
          split at hae
          · exact Except.noConfusion hae
          · cases hae
            have hfind2 : findByKey (updateByKey t1 k E) k =
                some (mergeDef B E) := updateByKey_findByKey_eq E hfind1
            have hfinal : findByKey m k = some (mergeDef B E) := by
              rw [applyExtends_unrelated_preserve hun2 happ]
              exact hfind2
            have hmergemem : mergeDef B E ∈ m := (findByKey_some_mem hfinal).1
            obtain ⟨hf, hm2, hv, hi⟩ := mergeDef_children hkB hkE
            obtain ⟨st, hp1, hp2⟩ := resolveSchema_ok_parts hrs
            refine ⟨m, hc, ⟨mergeDef B E, hfinal, hf, hm2, hv, hi⟩,
              ?_, ?_, ?_, ?_, ?_⟩
            · intro n ds vs hBeq
              subst hBeq
              have hkval : k = (.enumKind, n) := by
                simp [kindName] at hkB
                exact hkB.symm
              subst hkval
              obtain ⟨ds2, vs2, hEeq⟩ := extendTarget_enum_inv hkE
              subst hEeq
              have : mergeDef (.enumDef n ds vs) (.enumExt n ds2 vs2) =
                  .enumDef n (ds ++ ds2) (vs ++ vs2) := rfl
              rw [this] at hmergemem
              obtain ⟨en, hen, hname, hvals⟩ := phase2_enum_exists hp2 hmergemem
              exact ⟨en, hen, hname, by rw [hvals]; rfl⟩
            · intro n ifs ds flds hBeq
              subst hBeq
              have hkval : k = (.objectKind, n) := by
                simp [kindName] at hkB
                exact hkB.symm
              subst hkval
              obtain ⟨ifs2, ds2, fs2, hEeq⟩ := extendTarget_object_inv hkE
              subst hEeq
              have : mergeDef (.objectDef n ifs ds flds)
                    (.objectExt n ifs2 ds2 fs2) =
                  .objectDef n (ifs ++ ifs2) (ds ++ ds2) (flds ++ fs2) := rfl
              rw [this] at hmergemem
              obtain ⟨o, ho, hname, hflds⟩ := phase2_object_exists hp2 hmergemem
              exact ⟨o, ho, hname, by rw [hflds]; rfl⟩
            · intro n ds ifl hBeq
              subst hBeq
              have hkval : k = (.inputObjectKind, n) := by
                simp [kindName] at hkB
                exact hkB.symm
              subst hkval
              obtain ⟨ds2, ifl2, hEeq⟩ := extendTarget_inputObject_inv hkE
              subst hEeq
              have : mergeDef (.inputObjectDef n ds ifl)
                    (.inputObjectExt n ds2 ifl2) =
                  .inputObjectDef n (ds ++ ds2) (ifl ++ ifl2) := rfl
              rw [this] at hmergemem
              obtain ⟨io, hio, hname, hifl⟩ :=
                phase2_inputObject_exists hp2 hmergemem
              exact ⟨io, hio, hname, by rw [hifl]; rfl⟩
            · intro n ifs ds flds hBeq
              subst hBeq
              have hkval : k = (.interfaceKind, n) := by
                simp [kindName] at hkB
                exact hkB.symm
              subst hkval
              obtain ⟨ifs2, ds2, fs2, hEeq⟩ := extendTarget_interface_inv hkE
              subst hEeq
              have : mergeDef (.interfaceDef n ifs ds flds)
                    (.interfaceExt n ifs2 ds2 fs2) =
                  .interfaceDef n (ifs ++ ifs2) (ds ++ ds2) (flds ++ fs2) := rfl
              rw [this] at hmergemem
              obtain ⟨i, hmi, hname, hflds⟩ :=
                phase2_interface_exists hp2 hmergemem
              exact ⟨i, hmi, hname, by rw [hflds]; rfl⟩
            · intro n ds ms hBeq
              subst hBeq
              have hkval : k = (.unionKind, n) := by
                simp [kindName] at hkB
                exact hkB.symm
              subst hkval
              obtain ⟨ds2, ms2, hEeq⟩ := extendTarget_union_inv hkE
              subst hEeq
              have hmg : mergeDef (.unionDef n ds ms) (.unionExt n ds2 ms2) =
                  .unionDef n (ds ++ ds2) (ms ++ ms2) := rfl
              rw [hmg] at hmergemem
              obtain ⟨un, hunm, hname, hres⟩ :=
                phase2_union_exists hp2 hmergemem
              obtain ⟨hlen, hzip⟩ := resolveMemberNames_zip hres
              have hk2 : s.objects.map Object.name =
                  kindNamesOf .objectKind m := by
                have := (phase2_kind_names hp2).2.1
                simpa [emptySchema] using this
              have hidx : ∀ p ∈ st.typeMap, ∀ i, p.2 = .object i →
                  (s.objects.map Object.name)[i]? = some p.1 := by
                have hbase := phase1_object_index hp1 []
                  (by simp [initPhase1])
                  (by intro p hp; simp [initPhase1] at hp)
                intro p hp i hpi
                rw [hk2]
                simpa using hbase p hp i hpi
              refine ⟨un, hunm, hname, ?_⟩
              simpa [unionMemberNames, membersOfDef] using
                memberNames_of_zip hidx (ms ++ ms2) un.members hlen hzip

/-- Witness for C6 at a concrete build: extending Foo (fields a) with
field b yields the object entity Foo with field names a then b. -/
theorem extension_appends_children_witness :
    ∃ o : Object, o ∈ (extractSchema (Schema.build c6Base [c6Ext])).objects ∧
      o.name = "Foo" ∧
      objectFieldNames (extractSchema (Schema.build c6Base [c6Ext])) o =
        ["a", "b"] := by
  obtain ⟨m, hm, hchild, hen, hobj, hio, hifc, hun⟩ :=
    extension_appends_children c6Base [] [] c6B c6Ext (.objectKind, "Foo")
      (extractSchema (Schema.build c6Base [c6Ext])) rfl
      (List.mem_cons_of_mem _ (List.mem_cons_self _ _)) rfl rfl
      (by decide) (by decide) (by decide)
  have := hobj "Foo" [] [] [⟨"a", .named "S", [], []⟩] rfl
  simpa [c6Ext, fieldsOfDef] using this

/-! ## Helper lemmas: name registration and global uniqueness -/

theorem register_names_nodup (st : Phase1State) (n : String) (t : TypeId)
    (hcond : ¬(lookupName st.typeMap n).isSome = true)
    (hnd : (st.typeMap.map Prod.fst).Nodup) :
    (((st.typeMap ++ [(n, t)]).map Prod.fst)).Nodup := by
  rw [List.map_append]
  exact nodup_concat hnd
    (lookupName_none_iff.mp (Option.not_isSome_iff_eq_none.mp hcond))

theorem phase1Step_names {st : Phase1State} {d : TypeSystemDefinition}
    {st2 : Phase1State} (h : phase1Step st d = .ok st2) :
    st2.typeMap.map Prod.fst = st.typeMap.map Prod.fst ++ typeNameOf d ∧
    ((st.typeMap.map Prod.fst).Nodup → (st2.typeMap.map Prod.fst).Nodup) := by
  cases d <;> simp only [phase1Step] at h <;> (repeat' split at h) <;>
    first
      | exact Except.noConfusion h
      | (cases h
         refine ⟨by simp [typeNameOf, kindName], fun hnd => ?_⟩
         first
           | exact hnd
           | exact register_names_nodup _ _ _ (by assumption) hnd)

theorem phase1_names {defs : List TypeSystemDefinition} {st st2 : Phase1State}
    (h : phase1 defs st = .ok st2) :
    st2.typeMap.map Prod.fst = st.typeMap.map Prod.fst ++ typeNamesOf defs ∧
    ((st.typeMap.map Prod.fst).Nodup → (st2.typeMap.map Prod.fst).Nodup) := by
  induction defs generalizing st with
  | nil =>
      simp only [phase1] at h
      cases h
      exact ⟨by simp [typeNamesOf], fun hnd => hnd⟩
  | cons d rest ih =>
      simp only [phase1] at h
      cases hstep : phase1Step st d with
      | error e => rw [hstep] at h; exact Except.noConfusion h
      | ok st1 =>
          rw [hstep] at h
          obtain ⟨e1, n1⟩ := phase1Step_names hstep
          obtain ⟨e2, n2⟩ := ih h
          constructor
          · rw [e2, e1]
            simp [typeNamesOf, List.append_assoc]
          · intro hnd
            exact n2 (n1 hnd)

theorem count_typeNames_split (x : String) (m : List TypeSystemDefinition) :
    (typeNamesOf m).count x =
      (kindNamesOf .scalarKind m).count x +
      (kindNamesOf .objectKind m).count x +
      (kindNamesOf .interfaceKind m).count x +
      (kindNamesOf .unionKind m).count x +
      (kindNamesOf .enumKind m).count x +
      (kindNamesOf .inputObjectKind m).count x := by
  induction m with
  | nil => simp [typeNamesOf, kindNamesOf]
  | cons d rest ih =>
      simp only [typeNamesOf, kindNamesOf, List.count_append]
      rw [ih]
      cases d <;> simp [typeNameOf, defNameIfKind, kindName] <;> omega

/-- Claim C7: in a successfully built Schema the entity names of the
scalar, object, interface, union, enum and input-object tables are
globally unique: the concatenation of the six tables' name lists has no
duplicate, so any two distinct entities drawn from these tables (of the
same kind or of different kinds) carry different names. -/
theorem type_names_globally_unique (base ext : List TypeSystemDefinition)
    (s : Schema) (h : Schema.build base ext = .ok s) :
    (allTypeNames s).Nodup := by
  obtain ⟨m, hc, hrs⟩ := build_ok_parts h
  obtain ⟨st, hp1, hp2⟩ := resolveSchema_ok_parts hrs
  obtain ⟨hmap, hmapnd⟩ := phase1_names hp1
  have htn : (typeNamesOf m).Nodup := by
    have := hmapnd (by simp [initPhase1])
    rw [hmap] at this
    simpa [initPhase1] using this
  obtain ⟨k1, k2, k3, k4, k5, k6⟩ := phase2_kind_names hp2
  have hempty : ∀ x : String,
      (allTypeNames s).count x = (typeNamesOf m).count x := by
    intro x
    simp only [allTypeNames, List.count_append]
    rw [k1, k2, k3, k4, k5, k6]
    simp only [emptySchema, List.map_nil, List.nil_append]
    rw [count_typeNames_split]
  rw [List.nodup_iff_count_le_one]
  intro a
  rw [hempty a]
  exact List.nodup_iff_count_le_one.mp htn a

/-- Witness for C7 at a concrete build: the built-in schema's six name
tables concatenate to a duplicate-free list. -/
theorem type_names_globally_unique_witness :
    (allTypeNames (extractSchema (Schema.build builtinDefs []))).Nodup :=
  type_names_globally_unique builtinDefs []
    (extractSchema (Schema.build builtinDefs [])) rfl

/-! ## Helper lemmas: identifier bounds (no dangling references) -/

theorem phase1Step_le {st : Phase1State} {d : TypeSystemDefinition}
    {st2 : Phase1State} (h : phase1Step st d = .ok st2) : st.le st2 := by
  cases d <;> simp only [phase1Step] at h <;> (repeat' split at h) <;>
    first
      | exact Except.noConfusion h
      | (cases h
         refine ⟨?_, ?_, ?_, ?_, ?_, ?_⟩ <;>
           first
             | exact Nat.le_refl _
             | exact Nat.le_succ _)

theorem phase1_le {defs : List TypeSystemDefinition} {st st2 : Phase1State}
    (h : phase1 defs st = .ok st2) : st.le st2 := by
  induction defs generalizing st with
  | nil =>
      simp only [phase1] at h
      cases h
      exact ⟨Nat.le_refl _, Nat.le_refl _, Nat.le_refl _, Nat.le_refl _,
             Nat.le_refl _, Nat.le_refl _⟩
  | cons d rest ih =>
      simp only [phase1] at h
      cases hstep : phase1Step st d with
      | error e => rw [hstep] at h; exact Except.noConfusion h
      | ok st1 =>
          rw [hstep] at h
          obtain ⟨a1, a2, a3, a4, a5, a6⟩ := phase1Step_le hstep
          obtain ⟨b1, b2, b3, b4, b5, b6⟩ := ih h
          exact ⟨Nat.le_trans a1 b1, Nat.le_trans a2 b2, Nat.le_trans a3 b3,
                 Nat.le_trans a4 b4, Nat.le_trans a5 b5, Nat.le_trans a6 b6⟩

theorem boundedBy_mono {t : TypeId} {st st2 : Phase1State}
    (hb : t.boundedBy st) (hle : st.le st2) : t.boundedBy st2 := by
  obtain ⟨l1, l2, l3, l4, l5, l6⟩ := hle
  cases t <;> simp only [TypeId.boundedBy] at hb ⊢ <;> omega

theorem refBounded_mono {r : TypeReference} {st st2 : Phase1State}
    (hb : r.BoundedBy st) (hle : st.le st2) : r.BoundedBy st2 := by
  induction r with
  | named t => exact boundedBy_mono hb hle
  | list r ih => exact ih hb
  | nonNull r ih => exact ih hb

theorem phase1Step_inv {st : Phase1State} {d : TypeSystemDefinition}
    {st2 : Phase1State} (h : phase1Step st d = .ok st2)
    (hInv : ∀ p ∈ st.typeMap, p.2.boundedBy st) :
    ∀ p ∈ st2.typeMap, p.2.boundedBy st2 := by
  have hle := phase1Step_le h
  cases d <;> simp only [phase1Step] at h <;> (repeat' split at h) <;>
    first
      | exact Except.noConfusion h
      | (cases h
         intro p hp
         first
           | exact boundedBy_mono (hInv p hp) hle
           | (rcases List.mem_append.mp hp with hold | hnew
              · exact boundedBy_mono (hInv p hold) hle
              · simp only [List.mem_singleton] at hnew
                subst hnew
                simp only [TypeId.boundedBy]
                omega))

theorem phase1_inv {defs : List TypeSystemDefinition} {st st2 : Phase1State}
    (h : phase1 defs st = .ok st2)
    (hInv : ∀ p ∈ st.typeMap, p.2.boundedBy st) :
    ∀ p ∈ st2.typeMap, p.2.boundedBy st2 := by
  induction defs generalizing st with
  | nil =>
      simp only [phase1] at h
      cases h
      exact hInv
  | cons d rest ih =>
      simp only [phase1] at h
      cases hstep : phase1Step st d with
      | error e => rw [hstep] at h; exact Except.noConfusion h
      | ok st1 =>
          rw [hstep] at h
          exact ih h (phase1Step_inv hstep hInv)

theorem resolveType_bounded {st : Phase1State} {a : AstType}
    {r : TypeReference}
    (hInv : ∀ p ∈ st.typeMap, p.2.boundedBy st)
    (h : resolveType st.typeMap a = .ok r) : r.BoundedBy st := by
  induction a generalizing r with
  | named n =>
      simp only [resolveType] at h
      cases hl : lookupName st.typeMap n with
      | none => rw [hl] at h; exact Except.noConfusion h
      | some t =>
          rw [hl] at h
          cases h
          exact hInv (n, t) (lookupName_mem hl)
  | list i ih =>
      simp only [resolveType] at h
      cases hr : resolveType st.typeMap i with
      | error e => rw [hr] at h; exact Except.noConfusion h
      | ok r2 =>
          rw [hr] at h
          cases h
          have hb := ih hr
          exact hb
  | nonNull i ih =>
      simp only [resolveType] at h
      cases hr : resolveType st.typeMap i with
      | error e => rw [hr] at h; exact Except.noConfusion h
      | ok r2 =>
          rw [hr] at h
          cases h
          have hb := ih hr
          exact hb

theorem resolveArgumentDefs_bounded {st : Phase1State}
    {ivs : List InputValueDefinition} {args : List Argument}
    (hInv : ∀ p ∈ st.typeMap, p.2.boundedBy st)
    (h : resolveArgumentDefs st.typeMap ivs = .ok args) :
    ∀ a ∈ args, a.typ.BoundedBy st := by
  induction ivs generalizing args with
  | nil =>
      simp only [resolveArgumentDefs] at h
      cases h
      intro a ha
      cases ha
  | cons iv rest ih =>
      simp only [resolveArgumentDefs] at h
      cases ht : resolveType st.typeMap iv.typ with
      | error e => rw [ht] at h; exact Except.noConfusion h
      | ok ty =>
          rw [ht] at h
          cases hrest : resolveArgumentDefs st.typeMap rest with
          | error e => rw [hrest] at h; exact Except.noConfusion h
          | ok args2 =>
              rw [hrest] at h
              cases h
              intro a ha
              rcases List.mem_cons.mp ha with h1 | h2
              · subst h1
                exact resolveType_bounded hInv ht
              · exact ih hrest a h2

theorem resolveFields_bounded {st : Phase1State} {p : Option TypeId}
    {flds : List FieldDefinition} {fs : List Field}
    (hInv : ∀ q ∈ st.typeMap, q.2.boundedBy st)
    (h : resolveFields st p flds = .ok fs) :
    ∀ f ∈ fs, f.fieldType.BoundedBy st ∧
      ∀ a ∈ f.arguments, a.typ.BoundedBy st := by
  induction flds generalizing fs with
  | nil =>
      simp only [resolveFields] at h
      cases h
      intro f hf
      cases hf
  | cons fd rest ih =>
      simp only [resolveFields] at h
      cases ht : resolveType st.typeMap fd.typ with
      | error e => rw [ht] at h; exact Except.noConfusion h
      | ok ty =>
          rw [ht] at h
          cases ha : resolveArgumentDefs st.typeMap fd.arguments with
          | error e => rw [ha] at h; exact Except.noConfusion h
          | ok args =>
              rw [ha] at h
              cases hd : checkDirectives st .FIELD_DEFINITION fd.directives with
              | error e => rw [hd] at h; exact Except.noConfusion h
              | ok ds =>
                  rw [hd] at h
                  cases hrest : resolveFields st p rest with
                  | error e => rw [hrest] at h; exact Except.noConfusion h
                  | ok fs2 =>
                      rw [hrest] at h
                      cases h
                      intro f hf
                      rcases List.mem_cons.mp hf with h1 | h2
                      · subst h1
                        exact ⟨resolveType_bounded hInv ht,
                               resolveArgumentDefs_bounded hInv ha⟩
                      · exact ih hrest f h2

theorem addDef_refsBounded {st : Phase1State} {s : Schema}
    {d : TypeSystemDefinition} {s2 : Schema}
    (hInv : ∀ q ∈ st.typeMap, q.2.boundedBy st)
    (h : addDefinition st s d = .ok s2)
    (hB : SchemaRefsBounded st s) : SchemaRefsBounded st s2 := by
  obtain ⟨hf, hio, hdr⟩ := hB
  cases d <;> simp only [addDefinition] at h <;> (repeat' split at h) <;>
    first
      | exact Except.noConfusion h
      | (cases h
         refine ⟨?_, ?_, ?_⟩ <;> intro x hx <;>
           first
             | exact hf x hx
             | exact hio x hx
             | exact hdr x hx
             | (rcases List.mem_append.mp hx with hold | hnew
                · first
                    | exact hf x hold
                    | exact hio x hold
                    | exact hdr x hold
                · first
                    | exact resolveFields_bounded hInv (by assumption) x hnew
                    | (simp only [List.mem_singleton] at hnew
                       subst hnew
                       exact resolveArgumentDefs_bounded hInv (by assumption))))

theorem phase2_refsBounded {st : Phase1State}
    {defs : List TypeSystemDefinition} {s0 s : Schema}
    (hInv : ∀ q ∈ st.typeMap, q.2.boundedBy st)
    (h : phase2 st defs s0 = .ok s)
    (hB : SchemaRefsBounded st s0) : SchemaRefsBounded st s := by
  induction defs generalizing s0 with
  | nil =>
      simp only [phase2] at h
      cases h
      exact hB
  | cons d rest ih =>
      simp only [phase2] at h
      cases ha : addDefinition st s0 d with
      | error e => rw [ha] at h; exact Except.noConfusion h
      | ok s1 =>
          rw [ha] at h
          exact ih h (addDef_refsBounded hInv ha hB)

theorem phase1Step_counts {st : Phase1State} {d : TypeSystemDefinition}
    {st2 : Phase1State} (h : phase1Step st d = .ok st2) :
    st2.scalarCount = st.scalarCount + (defNameIfKind .scalarKind d).length ∧
    st2.objectCount = st.objectCount + (defNameIfKind .objectKind d).length ∧
    st2.interfaceCount =
      st.interfaceCount + (defNameIfKind .interfaceKind d).length ∧
    st2.unionCount = st.unionCount + (defNameIfKind .unionKind d).length ∧
    st2.enumCount = st.enumCount + (defNameIfKind .enumKind d).length ∧
    st2.inputObjectCount =
      st.inputObjectCount + (defNameIfKind .inputObjectKind d).length := by
  cases d <;> simp only [phase1Step] at h <;> (repeat' split at h) <;>
    first
      | exact Except.noConfusion h
      | (cases h
         refine ⟨?_, ?_, ?_, ?_, ?_, ?_⟩ <;> simp [defNameIfKind, kindName])

theorem phase1_counts {defs : List TypeSystemDefinition} {st st2 : Phase1State}
    (h : phase1 defs st = .ok st2) :
    st2.scalarCount = st.scalarCount + (kindNamesOf .scalarKind defs).length ∧
    st2.objectCount = st.objectCount + (kindNamesOf .objectKind defs).length ∧
    st2.interfaceCount =
      st.interfaceCount + (kindNamesOf .interfaceKind defs).length ∧
    st2.unionCount = st.unionCount + (kindNamesOf .unionKind defs).length ∧
    st2.enumCount = st.enumCount + (kindNamesOf .enumKind defs).length ∧
    st2.inputObjectCount =
      st.inputObjectCount + (kindNamesOf .inputObjectKind defs).length := by
  induction defs generalizing st with
  | nil =>
      simp only [phase1] at h
      cases h
      refine ⟨?_, ?_, ?_, ?_, ?_, ?_⟩ <;> simp [kindNamesOf]
  | cons d rest ih =>
      simp only [phase1] at h
      cases hstep : phase1Step st d with
      | error e => rw [hstep] at h; exact Except.noConfusion h
      | ok st1 =>
          rw [hstep] at h
          obtain ⟨a1, a2, a3, a4, a5, a6⟩ := phase1Step_counts hstep
          obtain ⟨b1, b2, b3, b4, b5, b6⟩ := ih h
          refine ⟨?_, ?_, ?_, ?_, ?_, ?_⟩ <;>
            simp only [kindNamesOf, List.length_append] <;> omega

theorem refValid_of_bounded {st : Phase1State} {s : Schema}
    {r : TypeReference}
    (h1 : st.scalarCount = s.scalars.length)
    (h2 : st.objectCount = s.objects.length)
    (h3 : st.interfaceCount = s.interfaces.length)
    (h4 : st.unionCount = s.unions.length)
    (h5 : st.enumCount = s.enums.length)
    (h6 : st.inputObjectCount = s.inputObjects.length)
    (hb : r.BoundedBy st) : refValidB s r = true := by
  induction r with
  | named t =>
      cases t <;>
        simp only [TypeReference.BoundedBy, TypeId.boundedBy] at hb <;>
        simp only [refValidB, idValidB, decide_eq_true_eq] <;>
        omega
  | list r ih => exact ih hb
  | nonNull r ih => exact ih hb

/-- Claim C1: in every successfully built Schema, every resolved Named
reference reachable from a field's type, a field argument, an
input-field or a directive argument indexes a live entry of the
kind-scoped tables: no dangling reference survives a successful build. -/
theorem build_no_dangling_references (base ext : List TypeSystemDefinition)
    (s : Schema) (h : Schema.build base ext = .ok s) :
    allRefsValidB s = true := by
  obtain ⟨m, hc, hrs⟩ := build_ok_parts h
  obtain ⟨st, hp1, hp2⟩ := resolveSchema_ok_parts hrs
  have hInv : ∀ q ∈ st.typeMap, q.2.boundedBy st :=
    phase1_inv hp1 (by intro q hq; simp [initPhase1] at hq)
  have hrb : SchemaRefsBounded st s := by
    apply phase2_refsBounded hInv hp2
    refine ⟨?_, ?_, ?_⟩ <;> intro x hx <;> simp [emptySchema] at hx
  obtain ⟨c1, c2, c3, c4, c5, c6⟩ := phase1_counts hp1
  obtain ⟨k1, k2, k3, k4, k5, k6⟩ := phase2_kind_names hp2
  have e1 : st.scalarCount = s.scalars.length := by
    have := congrArg List.length k1
    simp only [List.length_map, List.length_append, emptySchema,
      List.length_nil] at this
    simp [initPhase1] at c1
    omega
  have e2 : st.objectCount = s.objects.length := by
    have := congrArg List.length k2
    simp only [List.length_map, List.length_append, emptySchema,
      List.length_nil] at this
    simp [initPhase1] at c2
    omega
  have e3 : st.interfaceCount = s.interfaces.length := by
    have := congrArg List.length k3
    simp only [List.length_map, List.length_append, emptySchema,
      List.length_nil] at this
    simp [initPhase1] at c3
    omega
  have e4 : st.unionCount = s.unions.length := by
    have := congrArg List.length k4
    simp only [List.length_map, List.length_append, emptySchema,
      List.length_nil] at this
    simp [initPhase1] at c4
    omega
  have e5 : st.enumCount = s.enums.length := by
    have := congrArg List.length k5
    simp only [List.length_map, List.length_append, emptySchema,
      List.length_nil] at this
    simp [initPhase1] at c5
    omega
  have e6 : st.inputObjectCount = s.inputObjects.length := by
    have := congrArg List.length k6
    simp only [List.length_map, List.length_append, emptySchema,
      List.length_nil] at this
    simp [initPhase1] at c6
    omega
  obtain ⟨hf, hio, hdr⟩ := hrb
  simp only [allRefsValidB, Bool.and_eq_true, List.all_eq_true]
  refine ⟨⟨?_, ?_⟩, ?_⟩
  · intro f hfmem
    obtain ⟨hft, hfa⟩ := hf f hfmem
    exact ⟨refValid_of_bounded e1 e2 e3 e4 e5 e6 hft,
           fun a ha => refValid_of_bounded e1 e2 e3 e4 e5 e6 (hfa a ha)⟩
  · intro io hiomem
    exact fun a ha =>
      refValid_of_bounded e1 e2 e3 e4 e5 e6 (hio io hiomem a ha)
  · intro dr hdrmem
    exact fun a ha =>
      refValid_of_bounded e1 e2 e3 e4 e5 e6 (hdr dr hdrmem a ha)

/-- Witness for C1 at a concrete build: the schema built from scalar T
and object Box (field v of type T non-null with argument d) passes the
reference-validity check. -/
theorem build_no_dangling_references_witness :
    allRefsValidB (extractSchema (Schema.build c1Base [])) = true :=
  build_no_dangling_references c1Base []
    (extractSchema (Schema.build c1Base [])) rfl

/-! ## Helper lemmas: every reference is resolvable on success -/

theorem resolveType_innermost {tm : List (String × TypeId)} {a : AstType}
    {r : TypeReference} (h : resolveType tm a = .ok r) :
    (lookupName tm (innermostName a)).isSome = true := by
  induction a generalizing r with
  | named n =>
      simp only [resolveType] at h
      cases hl : lookupName tm n with
      | none => rw [hl] at h; exact Except.noConfusion h
      | some t => simp [innermostName, hl]
  | list i ih =>
      simp only [resolveType] at h
      cases hr : resolveType tm i with
      | error e => rw [hr] at h; exact Except.noConfusion h
      | ok r2 => exact ih hr
  | nonNull i ih =>
      simp only [resolveType] at h
      cases hr : resolveType tm i with
      | error e => rw [hr] at h; exact Except.noConfusion h
      | ok r2 => exact ih hr

theorem resolveArgumentDefs_resolvable {tm : List (String × TypeId)}
    {ivs : List InputValueDefinition} {args : List Argument}
    (h : resolveArgumentDefs tm ivs = .ok args) :
    ∀ iv ∈ ivs, (lookupName tm (innermostName iv.typ)).isSome = true := by
  induction ivs generalizing args with
  | nil => intro iv hiv; cases hiv
  | cons iv0 rest ih =>
      simp only [resolveArgumentDefs] at h
      cases ht : resolveType tm iv0.typ with
      | error e => rw [ht] at h; exact Except.noConfusion h
      | ok ty =>
          rw [ht] at h
          cases hrest : resolveArgumentDefs tm rest with
          | error e => rw [hrest] at h; exact Except.noConfusion h
          | ok args2 =>
              intro iv hiv
              rcases List.mem_cons.mp hiv with h1 | h2
              · subst h1
                exact resolveType_innermost ht
              · exact ih hrest iv h2

theorem resolveFields_resolvable {st : Phase1State} {p : Option TypeId}
    {flds : List FieldDefinition} {fs : List Field}
    (h : resolveFields st p flds = .ok fs) :
    ∀ a ∈ fieldAstTypes flds,
      (lookupName st.typeMap (innermostName a)).isSome = true := by
  induction flds generalizing fs with
  | nil => intro a ha; cases ha
  | cons fd rest ih =>
      simp only [resolveFields] at h
      cases ht : resolveType st.typeMap fd.typ with
      | error e => rw [ht] at h; exact Except.noConfusion h
      | ok ty =>
          rw [ht] at h
          cases ha2 : resolveArgumentDefs st.typeMap fd.arguments with
          | error e => rw [ha2] at h; exact Except.noConfusion h
          | ok args =>
              rw [ha2] at h
              cases hd : checkDirectives st .FIELD_DEFINITION fd.directives with
              | error e => rw [hd] at h; exact Except.noConfusion h
              | ok ds =>
                  rw [hd] at h
                  cases hrest : resolveFields st p rest with
                  | error e => rw [hrest] at h; exact Except.noConfusion h
                  | ok fs2 =>
                      intro a hmem
                      simp only [fieldAstTypes, List.mem_cons,
                        List.mem_append] at hmem
                      rcases hmem with h1 | h2 | h3
                      · subst h1
                        exact resolveType_innermost ht
                      · obtain ⟨iv, hiv, hiveq⟩ := List.mem_map.mp h2
                        subst hiveq
                        exact resolveArgumentDefs_resolvable ha2 iv hiv
                      · exact ih hrest a h3

theorem addDef_resolvable {st : Phase1State} {s : Schema}
    {d : TypeSystemDefinition} {s2 : Schema}
    (h : addDefinition st s d = .ok s2) :
    ∀ a ∈ defAstTypes d,
      (lookupName st.typeMap (innermostName a)).isSome = true := by
  cases d <;> simp only [addDefinition] at h <;> (repeat' split at h) <;>
    first
      | exact Except.noConfusion h
      | (intro a ha
         first
           | cases ha
           | exact resolveFields_resolvable (by assumption) a ha
           | (obtain ⟨iv, hiv, hiveq⟩ := List.mem_map.mp ha
              subst hiveq
              exact resolveArgumentDefs_resolvable (by assumption) iv hiv))

theorem phase2_resolvable {st : Phase1State}
    {defs : List TypeSystemDefinition} {s0 s : Schema}
    (h : phase2 st defs s0 = .ok s) :
    ∀ d ∈ defs, ∀ a ∈ defAstTypes d,
      (lookupName st.typeMap (innermostName a)).isSome = true := by
  induction defs generalizing s0 with
  | nil => intro d hd; cases hd
  | cons d0 rest ih =>
      simp only [phase2] at h
      cases ha : addDefinition st s0 d0 with
      | error e => rw [ha] at h; exact Except.noConfusion h
      | ok s1 =>
          rw [ha] at h
          intro d hd
          rcases List.mem_cons.mp hd with h1 | h2
          · subst h1
            exact addDef_resolvable ha
          · exact ih h d h2

theorem mem_astTypesOfList {l : List TypeSystemDefinition} {a : AstType} :
    a ∈ astTypesOfList l ↔ ∃ d ∈ l, a ∈ defAstTypes d := by
  induction l with
  | nil => simp [astTypesOfList]
  | cons d rest ih =>
      simp only [astTypesOfList, List.mem_append, ih, List.mem_cons]
      constructor
      · rintro (h1 | ⟨d2, hd2, ha2⟩)
        · exact ⟨d, Or.inl rfl, h1⟩
        · exact ⟨d2, Or.inr hd2, ha2⟩
      · rintro ⟨d2, hd2 | hd2, ha2⟩
        · subst hd2; exact Or.inl ha2
        · exact Or.inr ⟨d2, hd2, ha2⟩

/-- Claim C3 (amended): a consolidated definition set containing a
field, argument, input field or directive argument whose innermost
Named(name) is absent from the phase-1 name table never builds
successfully; under first-error-wins the error is UndefinedType only
when resolution reaches that reference before any other defect, and in
particular the spec's example — a field of the absent type Missing —
fails with UndefinedType naming Missing.  The unamended claim (the
error kind is always UndefinedType) is refuted by
`unresolvable_reference_error_kind_cex`. -/
theorem unresolvable_reference_fails :
    (∀ defs : List TypeSystemDefinition,
       (phase1 defs initPhase1).isOk = true →
       someRefUnresolvable (phase1TableOf defs) defs = true →
       ∃ e, resolveSchema defs = .error e) ∧
    build_schema (.ok [.objectDef "Foo" [] [] [⟨"f", .named "Missing", [], []⟩]])
      = .error (.undefinedType "Missing") := by
  refine ⟨?_, rfl⟩
  intro defs hok hunres
  cases hr : resolveSchema defs with
  | error e => exact ⟨e, rfl⟩
  | ok s =>
      exfalso
      obtain ⟨st, hp1, hp2⟩ := resolveSchema_ok_parts hr
      have htab : phase1TableOf defs = st.typeMap := by
        simp [phase1TableOf, hp1]
      rw [htab] at hunres
      simp only [someRefUnresolvable, List.any_eq_true,
        decide_eq_true_eq] at hunres
      obtain ⟨a, hamem, hnone⟩ := hunres
      obtain ⟨d, hd, had⟩ := mem_astTypesOfList.mp hamem
      have := phase2_resolvable hp2 d hd a had
      rw [Option.isNone_iff_eq_none] at hnone
      rw [hnone] at this
      cases this

/-- Counterexample to C3 as frozen: `c3Bad` has a field of the absent
type Missing, yet the first defect resolved is the object A implementing
the scalar B, so the build fails with ExpectedInterfaceType, not
UndefinedType. -/
theorem unresolvable_reference_error_kind_cex :
    (phase1 c3Bad initPhase1).isOk = true ∧
    someRefUnresolvable (phase1TableOf c3Bad) c3Bad = true ∧
    resolveSchema c3Bad = .error (.expectedInterfaceType "B") :=
  ⟨rfl, by decide, rfl⟩

/-- Witness for C3 at a concrete set with one unresolvable field. -/
theorem unresolvable_reference_fails_witness :
    (phase1 c3Witness initPhase1).isOk = true ∧
    someRefUnresolvable (phase1TableOf c3Witness) c3Witness = true ∧
    ∃ e, resolveSchema c3Witness = .error e :=
  ⟨rfl, by decide,
   unresolvable_reference_fails.1 c3Witness rfl (by decide)⟩

/-! ## Helper lemmas: directive uses survive consolidation -/

theorem mergeDef_extendTarget (d e : TypeSystemDefinition) :
    extendTarget (mergeDef d e) = extendTarget d := by
  cases d <;> cases e <;> rfl

theorem dirUsesAt_append (site : DirectiveLocation)
    (l1 l2 : List DirectiveApp) :
    dirUsesAt site (l1 ++ l2) = dirUsesAt site l1 ++ dirUsesAt site l2 := by
  simp [dirUsesAt]

theorem fieldUses_append (l1 l2 : List FieldDefinition) :
    fieldUses (l1 ++ l2) = fieldUses l1 ++ fieldUses l2 := by
  induction l1 with
  | nil => simp [fieldUses]
  | cons f rest ih => simp [fieldUses, ih]

theorem defUses_mergeDef {d e : TypeSystemDefinition} {k : DefKind × String}
    (hd : kindName d = some k) (he : extendTarget e = some k)
    {u : DirectiveLocation × DirectiveApp}
    (hu : u ∈ defUses d ∨ u ∈ defUses e) : u ∈ defUses (mergeDef d e) := by
  cases d <;> simp only [kindName] at hd <;>
    first
      | exact Option.noConfusion hd
      | (cases hd
         cases e <;> simp_all [extendTarget, mergeDef, defUses,
           dirUsesAt_append, fieldUses_append] <;> tauto)

theorem mem_updateByKey_of_mem {t : List TypeSystemDefinition}
    {d2 : TypeSystemDefinition} (k : DefKind × String)
    (e : TypeSystemDefinition) (hd : d2 ∈ t) :
    d2 ∈ updateByKey t k e ∨
      (kindName d2 = some k ∧ mergeDef d2 e ∈ updateByKey t k e) := by
  induction t with
  | nil => cases hd
  | cons x rest ih =>
      simp only [updateByKey]
      by_cases hx : kindName x = some k
      · rw [if_pos hx]
        rcases List.mem_cons.mp hd with h1 | h2
        · subst h1
          exact Or.inr ⟨hx, List.mem_cons_self _ _⟩
        · exact Or.inl (List.mem_cons_of_mem _ h2)
      · rw [if_neg hx]
        rcases List.mem_cons.mp hd with h1 | h2
        · subst h1
          exact Or.inl (List.mem_cons_self _ _)
        · rcases ih h2 with h3 | ⟨h3, h4⟩
          · exact Or.inl (List.mem_cons_of_mem _ h3)
          · exact Or.inr ⟨h3, List.mem_cons_of_mem _ h4⟩

theorem mem_updateByKey_inv {t : List TypeSystemDefinition}
    {x : TypeSystemDefinition} {k : DefKind × String}
    {e : TypeSystemDefinition} (hx : x ∈ updateByKey t k e) :
    x ∈ t ∨ ∃ d ∈ t, x = mergeDef d e := by
  induction t with
  | nil => cases hx
  | cons y rest ih =>
      simp only [updateByKey] at hx
      by_cases hy : kindName y = some k
      · rw [if_pos hy] at hx
        rcases List.mem_cons.mp hx with h1 | h2
        · exact Or.inr ⟨y, List.mem_cons_self _ _, h1⟩
        · exact Or.inl (List.mem_cons_of_mem _ h2)
      · rw [if_neg hy] at hx
        rcases List.mem_cons.mp hx with h1 | h2
        · subst h1
          exact Or.inl (List.mem_cons_self _ _)
        · rcases ih h2 with h3 | ⟨d, hd, hde⟩
          · exact Or.inl (List.mem_cons_of_mem _ h3)
          · exact Or.inr ⟨d, List.mem_cons_of_mem _ hd, hde⟩

theorem findByKey_merge_mem {t : List TypeSystemDefinition}
    {k : DefKind × String} {target : TypeSystemDefinition}
    (e : TypeSystemDefinition) (h : findByKey t k = some target) :
    mergeDef target e ∈ updateByKey t k e := by
  induction t with
  | nil => simp [findByKey] at h
  | cons x rest ih =>
      simp only [findByKey, updateByKey] at h ⊢
      by_cases hx : kindName x = some k
      · rw [if_pos hx] at h
        cases h
        rw [if_pos hx]
        exact List.mem_cons_self _ _
      · rw [if_neg hx] at h
        rw [if_neg hx]
        exact List.mem_cons_of_mem _ (ih h)

theorem applyExtend_covers {t t2 : List TypeSystemDefinition}
    {e : TypeSystemDefinition} {k : DefKind × String}
    (h : applyExtend t e = .ok t2) (hk : extendTarget e = some k) :
    (∀ u ∈ defUses e, ∃ d2 ∈ t2, u ∈ defUses d2) ∧
    (∀ d ∈ t, ∀ u ∈ defUses d, ∃ d2 ∈ t2, u ∈ defUses d2) := by
  simp only [applyExtend, hk] at h
  split at h
  · exact Except.noConfusion h
  · rename_i target hf
    split at h
    · exact Except.noConfusion h
    · cases h
      obtain ⟨htmem, htk⟩ := findByKey_some_mem hf
      constructor
      · intro u hu
        exact ⟨mergeDef target e, findByKey_merge_mem e hf,
               defUses_mergeDef htk hk (Or.inr hu)⟩
      · intro d hd u hu
        rcases mem_updateByKey_of_mem k e hd with h1 | ⟨h1, h2⟩
        · exact ⟨d, h1, hu⟩
        · exact ⟨mergeDef d e, h2, defUses_mergeDef h1 hk (Or.inl hu)⟩

theorem applyExtends_covers {items t m : List TypeSystemDefinition}
    (h : applyExtends items t = .ok m)
    (hext : ∀ e ∈ items, isExtend e = true) :
    ∀ u, ((∃ d ∈ t, u ∈ defUses d) ∨ (∃ e ∈ items, u ∈ defUses e)) →
      ∃ d ∈ m, u ∈ defUses d := by
  induction items generalizing t with
  | nil =>
      simp only [applyExtends] at h
      cases h
      intro u hu
      rcases hu with h1 | ⟨e, he, _⟩
      · exact h1
      · cases he
  | cons e0 rest ih =>
      simp only [applyExtends] at h
      cases ha : applyExtend t e0 with
      | error err => rw [ha] at h; exact Except.noConfusion h
      | ok t2 =>
          rw [ha] at h
          have hk0 : ∃ k, extendTarget e0 = some k := by
            have := hext e0 (List.mem_cons_self _ _)
            simp only [isExtend, Option.isSome_iff_exists] at this
            exact this
          obtain ⟨k, hk⟩ := hk0
          obtain ⟨cov_e, cov_t⟩ := applyExtend_covers ha hk
          intro u hu
          apply ih h (fun e2 he2 => hext e2 (List.mem_cons_of_mem _ he2)) u
          rcases hu with h1 | ⟨e2, he2, hu2⟩
          · obtain ⟨d, hd, hud⟩ := h1
            exact Or.inl (cov_t d hd u hud)
          · rcases List.mem_cons.mp he2 with h3 | h3
            · subst h3
              exact Or.inl (cov_e u hu2)
            · exact Or.inr ⟨e2, h3, hu2⟩

theorem mem_usesOfList {l : List TypeSystemDefinition}
    {u : DirectiveLocation × DirectiveApp} :
    u ∈ usesOfList l ↔ ∃ d ∈ l, u ∈ defUses d := by
  induction l with
  | nil => simp [usesOfList]
  | cons d rest ih =>
      simp only [usesOfList, List.mem_append, ih, List.mem_cons]
      constructor
      · rintro (h1 | ⟨d2, hd2, hu2⟩)
        · exact ⟨d, Or.inl rfl, h1⟩
        · exact ⟨d2, Or.inr hd2, hu2⟩
      · rintro ⟨d2, hd2 | hd2, hu2⟩
        · subst hd2; exact Or.inl hu2
        · exact Or.inr ⟨d2, hd2, hu2⟩

theorem consolidate_covers {base ext m : List TypeSystemDefinition}
    (h : consolidate base ext = .ok m) :
    ∀ u ∈ usesOfList (base ++ ext), ∃ d ∈ m, u ∈ defUses d := by
  obtain ⟨hab, happ⟩ := consolidate_ok_parts h
  intro u hu
  obtain ⟨d, hd, hud⟩ := mem_usesOfList.mp hu
  apply applyExtends_covers happ
    (fun e he => (List.mem_filter.mp he).2) u
  by_cases hx : isExtend d
  · exact Or.inr ⟨d, mem_extendItems hd hx, hud⟩
  · exact Or.inl ⟨d, mem_nonExtendItems hd (by simpa using hx), hud⟩

theorem consolidate_no_extends {base ext m : List TypeSystemDefinition}
    (h : consolidate base ext = .ok m) : ∀ d ∈ m, isExtend d = false := by
  obtain ⟨hab, happ⟩ := consolidate_ok_parts h
  have hstart : ∀ d ∈ nonExtendItems (base ++ ext), isExtend d = false := by
    intro d hd
    have := (List.mem_filter.mp hd).2
    simpa using this
  clear hab
  generalize hgen : extendItems (base ++ ext) = items at happ
  generalize hgen2 : nonExtendItems (base ++ ext) = t at happ hstart
  clear hgen hgen2 h
  induction items generalizing t with
  | nil =>
      simp only [applyExtends] at happ
      cases happ
      exact hstart
  | cons e0 rest ih =>
      simp only [applyExtends] at happ
      cases ha : applyExtend t e0 with
      | error err => rw [ha] at happ; exact Except.noConfusion happ
      | ok t2 =>
          rw [ha] at happ
          apply ih t2 happ
          intro d hd
          simp only [applyExtend] at ha
          split at ha
          · cases ha
            exact hstart d hd
          · split at ha
            · exact Except.noConfusion ha
            · split at ha
              · exact Except.noConfusion ha
              · cases ha
                rcases mem_updateByKey_inv hd with h1 | ⟨d0, hd0, hde⟩
                · exact hstart d h1
                · subst hde
                  rw [isExtend, mergeDef_extendTarget]
                  exact hstart d0 hd0

/-! ## Helper lemmas: directive validation on success -/

theorem phase1Step_dirInfos {st : Phase1State} {d : TypeSystemDefinition}
    {st2 : Phase1State} (h : phase1Step st d = .ok st2) :
    st2.directiveDefs = st.directiveDefs ++ (directiveInfoOf d).toList := by
  cases d <;> simp only [phase1Step] at h <;> (repeat' split at h) <;>
    first
      | exact Except.noConfusion h
      | (cases h; simp [directiveInfoOf])

theorem directiveInfosOf_cons (d : TypeSystemDefinition)
    (rest : List TypeSystemDefinition) :
    directiveInfosOf (d :: rest) =
      (directiveInfoOf d).toList ++ directiveInfosOf rest := by
  simp only [directiveInfosOf]
  cases directiveInfoOf d <;> simp

theorem phase1_dirInfos {defs : List TypeSystemDefinition}
    {st st2 : Phase1State} (h : phase1 defs st = .ok st2) :
    st2.directiveDefs = st.directiveDefs ++ directiveInfosOf defs := by
  induction defs generalizing st with
  | nil =>
      simp only [phase1] at h
      cases h
      simp [directiveInfosOf]
  | cons d rest ih =>
      simp only [phase1] at h
      cases hstep : phase1Step st d with
      | error e => rw [hstep] at h; exact Except.noConfusion h
      | ok st1 =>
          rw [hstep] at h
          rw [ih h, phase1Step_dirInfos hstep, directiveInfosOf_cons,
            List.append_assoc]

theorem checkDirectives_ok_valid {st : Phase1State}
    {site : DirectiveLocation} {apps : List DirectiveApp}
    {ds : List DirectiveValue}
    (h : checkDirectives st site apps = .ok ds) :
    ∀ app ∈ apps, ∃ info,
      findDirectiveInfo st.directiveDefs app.name = some info ∧
      site ∈ info.locations := by
  induction apps generalizing ds with
  | nil => intro app happ; cases happ
  | cons app0 rest ih =>
      simp only [checkDirectives] at h
      split at h
      · exact Except.noConfusion h
      · rename_i info hf
        split at h
        · rename_i hloc
          intro app happ
          rcases List.mem_cons.mp happ with h1 | h2
          · subst h1
            exact ⟨info, hf, hloc⟩
          · (repeat' split at h) <;>
              first
                | exact Except.noConfusion h
                | exact ih (by assumption) app h2
        · exact Except.noConfusion h

theorem dirUsesAt_valid {st : Phase1State} {site : DirectiveLocation}
    {apps : List DirectiveApp} {ds : List DirectiveValue}
    {u : DirectiveLocation × DirectiveApp}
    (h : checkDirectives st site apps = .ok ds)
    (hu : u ∈ dirUsesAt site apps) : DirUseOk st u := by
  simp only [dirUsesAt, List.mem_map] at hu
  obtain ⟨app, happ, hueq⟩ := hu
  subst hueq
  obtain ⟨info, hf, hloc⟩ := checkDirectives_ok_valid h app happ
  exact ⟨info, hf, hloc⟩

theorem resolveFields_usesValid {st : Phase1State} {p : Option TypeId}
    {flds : List FieldDefinition} {fs : List Field}
    (h : resolveFields st p flds = .ok fs) :
    ∀ u ∈ fieldUses flds, DirUseOk st u := by
  induction flds generalizing fs with
  | nil => intro u hu; cases hu
  | cons fd rest ih =>
      simp only [resolveFields] at h
      cases ht : resolveType st.typeMap fd.typ with
      | error e => rw [ht] at h; exact Except.noConfusion h
      | ok ty =>
          rw [ht] at h
          cases ha2 : resolveArgumentDefs st.typeMap fd.arguments with
          | error e => rw [ha2] at h; exact Except.noConfusion h
          | ok args =>
              rw [ha2] at h
              cases hd : checkDirectives st .FIELD_DEFINITION fd.directives with
              | error e => rw [hd] at h; exact Except.noConfusion h
              | ok ds =>
                  rw [hd] at h
                  cases hrest : resolveFields st p rest with
                  | error e => rw [hrest] at h; exact Except.noConfusion h
                  | ok fs2 =>
                      intro u hu
                      simp only [fieldUses, List.mem_append] at hu
                      rcases hu with h1 | h2
                      · exact dirUsesAt_valid hd h1
                      · exact ih hrest u h2

theorem addDef_usesValid {st : Phase1State} {s : Schema}
    {d : TypeSystemDefinition} {s2 : Schema} (hne : isExtend d = false)
    (h : addDefinition st s d = .ok s2) :
    ∀ u ∈ defUses d, DirUseOk st u := by
  cases d <;>
    first
      | (simp only [addDefinition] at h
         (repeat' split at h) <;>
           first
             | exact Except.noConfusion h
             | (intro u hu
                simp only [defUses] at hu
                first
                  | exact absurd hu (List.not_mem_nil u)
                  | (rcases List.mem_append.mp hu with h1 | h2
                     · exact dirUsesAt_valid (by assumption) h1
                     · exact resolveFields_usesValid (by assumption) u h2)
                  | exact dirUsesAt_valid (by assumption) hu))
      | exact absurd hne (by simp [isExtend, extendTarget])

theorem phase2_usesValid {st : Phase1State}
    {defs : List TypeSystemDefinition} {s0 s : Schema}
    (h : phase2 st defs s0 = .ok s)
    (hne : ∀ d ∈ defs, isExtend d = false) :
    ∀ d ∈ defs, ∀ u ∈ defUses d, DirUseOk st u := by
  induction defs generalizing s0 with
  | nil => intro d hd; cases hd
  | cons d0 rest ih =>
      simp only [phase2] at h
      cases ha : addDefinition st s0 d0 with
      | error e => rw [ha] at h; exact Except.noConfusion h
      | ok s1 =>
          rw [ha] at h
          intro d hd
          rcases List.mem_cons.mp hd with h1 | h2
          · subst h1
            exact addDef_usesValid (hne d (List.mem_cons_self _ _)) ha
          · exact ih h (fun d2 hd2 => hne d2 (List.mem_cons_of_mem _ hd2)) d h2

/-- Claim C8 (amended): an input in which some directive application's
use site is outside the applied directive's declared locations never
builds successfully; under first-error-wins the error is
InvalidDirectiveUsage only when that mislocation is the first defect
encountered, as in the concrete scenario of a directive restricted to
OBJECT applied on a scalar, which fails with InvalidDirectiveUsage.
The unamended claim (the error kind is always InvalidDirectiveUsage)
is refuted by `mislocated_directive_error_kind_cex`. -/
theorem mislocated_directive_fails :
    (∀ base ext : List TypeSystemDefinition,
       mislocatedUse (base ++ ext) = true →
       ∃ e, Schema.build base ext = .error e) ∧
    Schema.build c8Example [] = .error (.invalidDirectiveUsage "d") := by
  refine ⟨?_, rfl⟩
  intro base ext hmis
  cases hb : Schema.build base ext with
  | error e => exact ⟨e, rfl⟩
  | ok s =>
      exfalso
      obtain ⟨m, hc, hrs⟩ := build_ok_parts hb
      obtain ⟨st, hp1, hp2⟩ := resolveSchema_ok_parts hrs
      have hinfos : st.directiveDefs = directiveInfosOf (base ++ ext) := by
        have h1 := phase1_dirInfos hp1
        simp only [initPhase1, List.nil_append] at h1
        rw [h1]
        obtain ⟨hab, happ⟩ := consolidate_ok_parts hc
        rw [applyExtends_ok_dirInfos happ, dirInfos_nonExtendItems]
      simp only [mislocatedUse, List.any_eq_true] at hmis
      obtain ⟨u, humem, hbad⟩ := hmis
      cases hf : findDirectiveInfo (directiveInfosOf (base ++ ext))
          u.2.name with
      | none => rw [hf] at hbad; simp at hbad
      | some info =>
          rw [hf] at hbad
          simp only [decide_eq_true_eq] at hbad
          obtain ⟨d, hdm, hud⟩ := consolidate_covers hc u humem
          obtain ⟨info2, hf2, hloc2⟩ :=
            phase2_usesValid hp2 (consolidate_no_extends hc) d hdm u hud
          rw [hinfos, hf] at hf2
          cases hf2
          exact hbad hloc2

/-- Counterexample to C8 as frozen: `c8Cex` applies the OBJECT-only
directive d on a scalar, but an earlier definition's field type fails
resolution first, so the build errors UndefinedType, not
InvalidDirectiveUsage. -/
theorem mislocated_directive_error_kind_cex :
    mislocatedUse (c8Cex ++ []) = true ∧
    Schema.build c8Cex [] = .error (.undefinedType "Missing0") :=
  ⟨by decide, rfl⟩

/-- Witness for C8 at the concrete mislocated-directive scenario. -/
theorem mislocated_directive_fails_witness :
    mislocatedUse (c8Example ++ []) = true ∧
    ∃ e, Schema.build c8Example [] = .error e :=
  ⟨by decide, mislocated_directive_fails.1 c8Example [] (by decide)⟩

/-! ## Entry-point claims -/

theorem parseInto_err {pre : List SourceText} {bad : SourceText}
    {e : SchemaError} (post : List SourceText)
    (hpre : ∀ d ∈ pre, ∃ l, parse_definitions d = .ok l)
    (hbad : parse_definitions bad = .error e) :
    ∀ acc, parseInto acc (pre ++ bad :: post) = .error e := by
  induction pre with
  | nil =>
      intro acc
      simp only [List.nil_append, parseInto, hbad]
  | cons d pre2 ih =>
      intro acc
      obtain ⟨l, hl⟩ := hpre d (List.mem_cons_self _ _)
      simp only [List.cons_append, parseInto, hl]
      exact ih (fun d2 hd2 => hpre d2 (List.mem_cons_of_mem _ hd2)) (acc ++ l)

theorem parseInto_ok {docs : List SourceText}
    (hdocs : ∀ d ∈ docs, ∃ l, parse_definitions d = .ok l) :
    ∀ acc, ∃ l, parseInto acc docs = .ok l := by
  induction docs with
  | nil => intro acc; exact ⟨acc, rfl⟩
  | cons d rest ih =>
      intro acc
      obtain ⟨l, hl⟩ := hdocs d (List.mem_cons_self _ _)
      simp only [parseInto, hl]
      exact ih (fun d2 hd2 => hdocs d2 (List.mem_cons_of_mem _ hd2)) (acc ++ l)

/-- Claim C2: building is all-or-nothing — the result is either a
Schema or a single typed SchemaError — and the first parse error of the
builtins/server/extension document sequence aborts the whole operation
with exactly that error, no partial Schema ever being produced. -/
theorem build_all_or_nothing :
    (∀ server exts : List SourceText,
       (∃ s, build_schema_with_extensions server exts = .ok s) ∨
       (∃ e, build_schema_with_extensions server exts = .error e)) ∧
    (∀ (pre post : List SourceText) (bad : SourceText)
       (exts : List SourceText) (e : SchemaError),
       (∀ d ∈ pre, ∃ l, parse_definitions d = .ok l) →
       parse_definitions bad = .error e →
       build_schema_with_extensions (pre ++ bad :: post) exts = .error e) ∧
    (∀ (server pre post : List SourceText) (bad : SourceText)
       (e : SchemaError),
       (∀ d ∈ server, ∃ l, parse_definitions d = .ok l) →
       (∀ d ∈ pre, ∃ l, parse_definitions d = .ok l) →
       parse_definitions bad = .error e →
       build_schema_with_extensions server (pre ++ bad :: post) = .error e) := by
  refine ⟨?_, ?_, ?_⟩
  · intro server exts
    cases h : build_schema_with_extensions server exts with
    | ok s => exact Or.inl ⟨s, rfl⟩
    | error e => exact Or.inr ⟨e, rfl⟩
  · intro pre post bad exts e hpre hbad
    have h1 := parseInto_err post hpre hbad builtinDefs
    simp only [build_schema_with_extensions, BUILTINS, parse_definitions]
    rw [h1]
  · intro server pre post bad e hserver hpre hbad
    obtain ⟨l, hl⟩ := parseInto_ok hserver builtinDefs
    have h1 := parseInto_err post hpre hbad []
    simp only [build_schema_with_extensions, BUILTINS, parse_definitions]
    rw [hl, h1]

/-- Witness for C2: one syntactically failing server document aborts
the build with its syntax error; a failing extension document after a
clean server sequence does the same. -/
theorem build_all_or_nothing_witness :
    build_schema_with_extensions [SourceText.syntaxFailure "bad token"] []
      = .error (.syntaxError "bad token") ∧
    build_schema_with_extensions ([] : List SourceText)
        [SourceText.syntaxFailure "bad ext"]
      = .error (.syntaxError "bad ext") :=
  ⟨build_all_or_nothing.2.1 [] [] (.syntaxFailure "bad token") []
     (.syntaxError "bad token") (fun d hd => absurd hd (List.not_mem_nil d))
     rfl,
   build_all_or_nothing.2.2 [] [] [] (.syntaxFailure "bad ext")
     (.syntaxError "bad ext") (fun d hd => absurd hd (List.not_mem_nil d))
     (fun d hd => absurd hd (List.not_mem_nil d)) rfl⟩

/-- Claim C9: `build_schema sdl` is exactly
`build_schema_with_extensions [sdl] []` — built-ins plus the single
server document, no extensions applied. -/
theorem build_schema_is_single_server_no_extensions :
    ∀ sdl : SourceText,
      build_schema sdl = build_schema_with_extensions [sdl] [] ∧
      (∀ ds, parse_definitions sdl = .ok ds →
        build_schema sdl = Schema.build (builtinDefs ++ ds) []) := by
  intro sdl
  refine ⟨rfl, ?_⟩
  intro ds hds
  cases sdl with
  | ok l =>
      cases hds
      exact build_schema_ok_doc ds
  | syntaxFailure msg => exact Except.noConfusion hds

/-- Witness for C9 at a concrete document. -/
theorem build_schema_is_single_server_no_extensions_witness :
    build_schema (.ok c1Base) = build_schema_with_extensions [.ok c1Base] [] ∧
    build_schema (.ok c1Base) = Schema.build (builtinDefs ++ c1Base) [] :=
  ⟨(build_schema_is_single_server_no_extensions (.ok c1Base)).1,
   (build_schema_is_single_server_no_extensions (.ok c1Base)).2 c1Base rfl⟩

/-- Claim C10: the entry points consult only `BUILTINS` and the
caller-passed documents — `RELAY_EXTENSIONS` is never merged in
automatically; relay-style declarations appear in a built Schema
exactly when the caller passes that document in `extension_sdls`. -/
theorem relay_extensions_not_auto_included :
    (∀ server exts : List SourceText,
       build_schema_with_extensions server exts =
         match parse_definitions BUILTINS with
         | .error e => .error e
         | .ok b =>
             match parseInto b server with
             | .error e => .error e
             | .ok sd =>
                 match parseInto [] exts with
                 | .error e => .error e
                 | .ok ed => Schema.build sd ed) ∧
    hasDirectiveNamed
        (build_schema_with_extensions ([] : List SourceText) []) "relay"
      = false ∧
    hasDirectiveNamed
        (build_schema_with_extensions ([] : List SourceText)
          [RELAY_EXTENSIONS]) "relay"
      = true :=
  ⟨fun server exts => rfl, by decide, by decide⟩

end RelaySchema
